import Mathlib

/-!
# Corner Grocer frequency table: a verification development

Shallow embedding of `src/FrequencyTable.cpp` (the aggregator) and of the
suggestion engine and histogram scaling of `src/main.cpp`, together with
proofs of their contracts.

Modelling conventions

* A `std::string` is a list of bytes (`unsigned char`, values `0..255`).
* `std::tolower` / `std::isspace` are the "C"-locale functions (the program
  never calls `setlocale`).
* `std::unordered_map` is an association list with pairwise distinct keys.
  Its iteration order is unspecified in C++; the model iterates in order of
  first insertion, and the theorems on the sorted views show that the
  result does not depend on that order.
* `std::sort` is modelled by insertion sort with the same comparator.  The
  comparators used here never rank two different table entries as
  equivalent, so every correct sorting procedure returns the same vector
  (see `stdSort_unique` and `views_iteration_order`).
* `int` counters are natural numbers.  Every counter, and their sum, is
  bounded by the number of input lines (`load_counts_le_length`), so no `int`
  operation overflows for inputs of fewer than `2^31` lines; signed overflow
  beyond that is undefined behaviour in C++ and outside the model.
  Scores and edit distances are natural numbers as well: they are bounded by
  the lengths of the strings.  The histogram arithmetic, where the size of
  the counts is the point, is done on integers with 32-bit wrap-around
  (`wrapInt`) and truncating division.
* A throwing function returns `Except Exn _`.
* The file system is seen through the outcomes of the calls made on it
  (`FsOutcome`), and the clock through the text of the time stamp.
-/

/-- One byte of a `std::string`, read as `unsigned char`. -/
abbrev Byte := Fin 256

/-- A `std::string`: a finite sequence of bytes. -/
abbrev Str := List Byte

/-- `std::tolower` in the "C" locale: `'A'..'Z'` go to `'a'..'z'`, every other
byte is unchanged. -/
def tolower (c : Byte) : Byte :=
  if 65 ≤ c.val ∧ c.val ≤ 90 then c + 32 else c

/-- `std::isspace` in the "C" locale: space, `\t`, `\n`, `\v`, `\f`, `\r`. -/
def isspace (c : Byte) : Bool :=
  c.val == 32 || (9 ≤ c.val && c.val ≤ 13)

/-- `std::string::operator<`: lexicographic comparison of the bytes as
`unsigned char`; a proper prefix is smaller. -/
def strLt : Str → Str → Bool
  | [], [] => false
  | [], _ :: _ => true
  | _ :: _, [] => false
  | a :: as, b :: bs =>
    if a < b then true else if b < a then false else strLt as bs

/-- Exceptions the aggregator can raise. -/
inductive Exn where
  | runtimeError : Exn
  | outOfRange : Exn
  deriving DecidableEq, Repr

/-- `unordered_map::find`: the value stored under `k`, if any. -/
def mapFind {V : Type} : List (Str × V) → Str → Option V
  | [], _ => none
  | (k', v) :: rest, k => if k' = k then some v else mapFind rest k

/-- `unordered_map::at`: like `find`, but throws `std::out_of_range` when the
key is absent. -/
def mapAt {V : Type} (m : List (Str × V)) (k : Str) : Except Exn V :=
  match mapFind m k with
  | some v => Except.ok v
  | none => Except.error Exn.outOfRange

/-- `++m[k]` on an `unordered_map<string,int>`: `operator[]` value-initialises
a missing entry to `0`, then the entry is incremented. -/
def mapIncr : List (Str × Nat) → Str → List (Str × Nat)
  | [], k => [(k, 0 + 1)]
  | (k', c) :: rest, k =>
    if k' = k then (k', c + 1) :: rest else (k', c) :: mapIncr rest k

/-- `m[k] = v` on an `unordered_map<string,string>`. -/
def mapAssign : List (Str × Str) → Str → Str → List (Str × Str)
  | [], k, v => [(k, v)]
  | (k', v') :: rest, k, v =>
    if k' = k then (k', v) :: rest else (k', v') :: mapAssign rest k v

/-- `std::sort` step: insert `x` into an already sorted list. -/
def sortInsert {α : Type} (comp : α → α → Bool) (x : α) : List α → List α
  | [] => [x]
  | y :: ys => if comp x y then x :: y :: ys else y :: sortInsert comp x ys

/-- `std::sort(first, last, comp)`. -/
def stdSort {α : Type} (comp : α → α → Bool) : List α → List α
  | [] => []
  | x :: xs => sortInsert comp x (stdSort comp xs)

/-- A row of a sorted view: `std::pair<std::string,int>`. -/
abbrev Row := Str × Nat

/-- State of a `FrequencyTable` object. -/
structure FrequencyTable where
  inputPath_ : Str
  counts_ : List (Str × Nat)
  pretty_ : List (Str × Str)
  deriving DecidableEq, Repr

namespace FrequencyTable

/-- `FrequencyTable::toLower`. -/
def toLower (s : Str) : Str := s.map tolower

/-- `FrequencyTable::trim`: `b` skips leading whitespace, then `e` backs up
over trailing whitespace of what is left, and `s.substr(b, e - b)` is
returned. -/
def trim (s : Str) : Str := (s.dropWhile isspace).rdropWhile isspace

/-- Body of the `getline` loop of `FrequencyTable::load` for one line. -/
def loadLine (t : FrequencyTable) (line : Str) : FrequencyTable :=
  let item := trim line
  if item = [] then t
  else
    let key := toLower item
    let counts := mapIncr t.counts_ key
    if mapFind t.pretty_ key = none then
      { t with counts_ := counts, pretty_ := mapAssign t.pretty_ key item }
    else
      { t with counts_ := counts }

/-- `FrequencyTable::load`.  `fin` is the outcome of opening `inputPath_`:
`none` when the file cannot be opened, otherwise the lines that successive
`getline` calls return.  Both maps are cleared before the file is opened, so
ingestion always starts from empty maps; when the open fails the function
throws and the caller sees only the exception. -/
def load (t : FrequencyTable) (fin : Option (List Str)) : Except Exn FrequencyTable :=
  let cleared : FrequencyTable := { t with counts_ := [], pretty_ := [] }
  match fin with
  | none => Except.error Exn.runtimeError
  | some lines => Except.ok (lines.foldl loadLine cleared)

/-- `FrequencyTable::countOf`. -/
def countOf (t : FrequencyTable) (item : Str) : Nat :=
  let key := toLower (trim item)
  match mapFind t.counts_ key with
  | none => 0
  | some c => c

/-- `FrequencyTable::totalPurchases`. -/
def totalPurchases (t : FrequencyTable) : Nat :=
  t.counts_.foldl (fun sum kv => sum + kv.2) 0

/-- `FrequencyTable::uniqueItemCount`. -/
def uniqueItemCount (t : FrequencyTable) : Nat := t.counts_.length

/-- The collection loop shared by the sorted views: one
`(pretty_.at(key), count)` row per entry of `counts_`. -/
def collectRows (t : FrequencyTable) : List (Str × Nat) → Except Exn (List Row)
  | [] => Except.ok []
  | (key, count) :: rest =>
    match mapAt t.pretty_ key with
    | Except.error e => Except.error e
    | Except.ok name =>
      match collectRows t rest with
      | Except.error e => Except.error e
      | Except.ok out => Except.ok ((name, count) :: out)

/-- Comparator of `itemsSortedByName`. -/
def nameLess (a b : Row) : Bool :=
  let al := toLower a.1
  let bl := toLower b.1
  if al = bl then strLt a.1 b.1 else strLt al bl

/-- Comparator of `itemsSortedByFreqDesc`. -/
def freqLess (a b : Row) : Bool :=
  if a.2 ≠ b.2 then decide (a.2 > b.2)
  else
    let al := toLower a.1
    let bl := toLower b.1
    if al = bl then strLt a.1 b.1 else strLt al bl

/-- `FrequencyTable::itemsSortedByName`. -/
def itemsSortedByName (t : FrequencyTable) : Except Exn (List Row) :=
  match collectRows t t.counts_ with
  | Except.error e => Except.error e
  | Except.ok out => Except.ok (stdSort nameLess out)

/-- `FrequencyTable::itemsSortedByFreqDesc`. -/
def itemsSortedByFreqDesc (t : FrequencyTable) : Except Exn (List Row) :=
  match collectRows t t.counts_ with
  | Except.error e => Except.error e
  | Except.ok out => Except.ok (stdSort freqLess out)

/-- `FrequencyTable::itemsSortedByFreqAsc`. -/
def itemsSortedByFreqAsc (t : FrequencyTable) : Except Exn (List Row) :=
  match itemsSortedByFreqDesc t with
  | Except.error e => Except.error e
  | Except.ok out => Except.ok out.reverse

end FrequencyTable

open FrequencyTable

/-- ASCII text as a byte string (used for concrete examples). -/
def bytes (s : String) : Str := s.toList.map (fun c => Fin.ofNat c.toNat)

/-- The spec's test "the line counts towards key `k`": it is non-empty after
trimming and its trimmed text lowercases to `k`. -/
def countsFor (k : Str) (line : Str) : Bool :=
  decide (trim line ≠ [] ∧ toLower (trim line) = k)

/-- Representation invariant of a loaded table: both maps hold the same keys
(in the model: in the same order), keys are pairwise distinct, every count is
positive, and every display name is a non-empty trimmed string that
lowercases to its key. -/
structure WellFormed (t : FrequencyTable) : Prop where
  keys_eq : t.pretty_.map Prod.fst = t.counts_.map Prod.fst
  nodup : (t.counts_.map Prod.fst).Nodup
  pos : ∀ kc ∈ t.counts_, 1 ≤ kc.2
  display : ∀ kd ∈ t.pretty_, kd.2 ≠ [] ∧ trim kd.2 = kd.2 ∧ toLower kd.2 = kd.1

/-- The normalized keys of the input, in input order and with repetitions:
`lowercase(trim(line))` for every line that is non-empty after trimming. -/
def normKeys (lines : List Str) : List Str :=
  ((lines.map trim).filter (fun s => decide (s ≠ []))).map toLower

/-- A strict total order given as a Boolean `less` function. -/
structure StrictTotal {κ : Type} (lt : κ → κ → Bool) : Prop where
  irrefl : ∀ a, lt a a = false
  trans : ∀ a b c, lt a b = true → lt b c = true → lt a c = true
  total : ∀ a b, lt a b = false → lt b a = false → a = b

/-- The requirement `std::sort` puts on its comparator (a strict weak
ordering), in the form the sorting proofs use: `comp` is asymmetric and
"not greater than" is transitive. -/
structure StrictWeak {α : Type} (comp : α → α → Bool) : Prop where
  asymm : ∀ a b, comp a b = true → comp b a = false
  negTrans : ∀ a b c, comp b a = false → comp c b = false → comp c a = false

/-- Lexicographic combination of two `less` functions: compare the first
components, and the second ones when the first are equal. -/
def lexLt {κ₁ κ₂ : Type} [DecidableEq κ₁] (lt₁ : κ₁ → κ₁ → Bool) (lt₂ : κ₂ → κ₂ → Bool)
    (a b : κ₁ × κ₂) : Bool :=
  if a.1 = b.1 then lt₂ a.2 b.2 else lt₁ a.1 b.1

/-- The sort key of `nameLess`: the lowercased name, then the name itself. -/
def nameKey (r : Row) : Str × Str := (toLower r.1, r.1)

/-- The sort key of `freqLess`: the count, then the `nameLess` key. -/
def freqKey (r : Row) : Nat × (Str × Str) := (r.2, nameKey r)

/-- Descending order on counts: `a > b`. -/
def natGt (a b : Nat) : Bool := decide (a > b)

/-- The rows of a table before sorting: for each entry of `counts_`, its
display name (looked up in `pretty_`) and its count. -/
def entriesOf (t : FrequencyTable) : List Row :=
  t.counts_.map (fun kc => ((mapFind t.pretty_ kc.1).getD [], kc.2))

/-- The ordering guarantee of the name view between two consecutive rows:
lowercased names ascend byte-wise, and when they are equal the display names
themselves are in byte-wise non-descending order. -/
def NameAscending (x y : Row) : Prop :=
  strLt (toLower x.1) (toLower y.1) = true ∨
    (toLower x.1 = toLower y.1 ∧ (strLt x.1 y.1 = true ∨ x.1 = y.1))

/-- The input lines that stand for a list of backup rows: each row
`(displayName, count)` becomes `count` copies of the line `displayName`. -/
def expandRows : List Row → List Str
  | [] => []
  | (name, count) :: rest => List.replicate count name ++ expandRows rest

/-! ## `FrequencyTable::writeBackup` -/

/-- Outcomes of the file-system calls `writeBackup` makes, in the order it
makes them: `true` when the call succeeds (for the `std::error_code`
overloads: when it leaves the error code clear). -/
structure FsOutcome where
  openOk : Bool
  renameOk : Bool
  copyOk : Bool
  removeOk : Bool
  deriving DecidableEq, Repr

/-- `operator<<(int)` for a non-negative value: its decimal digits. -/
def decimal (n : Nat) : Str := (Nat.toDigits 10 n).map (fun c => Fin.ofNat c.toNat)

/-- A file-system call with a `std::error_code& ec` argument: whatever `ec`
held before, afterwards it is set exactly when the call failed. -/
def setEc (_ec : Bool) (callOk : Bool) : Bool := !callOk

/-- The header comment line of the backup; `stamp` is the text `std::put_time`
produces for the current local time. -/
def backupHeader (t : FrequencyTable) (stamp : Str) : Str :=
  bytes "# frequency.dat generated " ++ stamp ++ bytes " from " ++ t.inputPath_

/-- One item line of the backup: `row.first << " " << row.second`. -/
def backupRow (row : Row) : Str := row.1 ++ bytes " " ++ decimal row.2

/-- `FrequencyTable::writeBackup`.  The result is the sequence of lines written
to the temporary file when the function returns normally, and the exception
when it throws.  `create_directories` is called with an error code that is
never looked at, so it has no place in the model.  After a failed `rename`
the code calls `copy_file` and then `remove` with the same error code and
tests the code only after both: what it tests is the outcome of `remove`. -/
def FrequencyTable.writeBackup (t : FrequencyTable) (stamp : Str) (fs : FsOutcome) :
    Except Exn (List Str) :=
  if !fs.openOk then Except.error Exn.runtimeError
  else
    match itemsSortedByName t with
    | Except.error e => Except.error e
    | Except.ok rows =>
      let content := backupHeader t stamp :: rows.map backupRow
      let ec := setEc false fs.renameOk
      if ec then
        let ec := setEc ec fs.copyOk
        let ec := setEc ec fs.removeOk
        if ec then Except.error Exn.runtimeError else Except.ok content
      else Except.ok content

/-- The reading of "finalization cannot complete" in the backup contract: the
move of the temporary onto the target fails and the fallback copy fails
too. -/
def finalizationFails (fs : FsOutcome) : Bool := !fs.renameOk && !fs.copyOk

/-! ## `main.cpp`: the suggestion engine -/

/-- `toLowerCopy`. -/
def toLowerCopy (s : Str) : Str := s.map tolower

/-- Inner loop of `editDistanceLevenshtein` for the character `x = a[i-1]`:
the arguments are what is left of `b` from `b[j-1]` on, what is left of
`prev` from `prev[j-1]` on, and `cur[j-1]`; the result is `cur[j], ...,
cur[m]`. -/
def levFill (x : Byte) : Str → List Nat → Nat → List Nat
  | y :: ys, d :: p :: ps, left =>
    let cost := if x = y then 0 else 1
    let c := min (p + 1) (min (left + 1) (d + cost))
    c :: levFill x ys (p :: ps) c
  | _, _, _ => []

/-- Outer loop of `editDistanceLevenshtein`: the arguments are what is left of
`a` from `a[i-1]` on, the index `i`, and `prev`.  Each pass builds `cur`
(starting with `cur[0] = i`) and swaps it into `prev`; every cell of `cur` is
written before it is read, so its previous content is not part of the
state. -/
def levRows (b : Str) : Str → Nat → List Nat → List Nat
  | [], _, prev => prev
  | x :: xs, i, prev => levRows b xs (i + 1) (i :: levFill x b prev i)

/-- `editDistanceLevenshtein`. -/
def editDistanceLevenshtein (a b : Str) : Nat :=
  (levRows b a 1 (List.range (b.length + 1))).getD b.length 0

/-- An element of `ranked`: `std::tuple<int,bool,std::string>`, that is
`(score, isPrefix, name)`. -/
abbrev Ranked := Nat × Bool × Str

/-- The test `nameLower.rfind(queryLower, 0) == 0`: `nameLower` starts with
`queryLower`. -/
def startsWith (nameLower queryLower : Str) : Bool := queryLower.isPrefixOf nameLower

/-- Body of the scoring loop of `suggestionsFor` for one row. -/
def rankRow (queryLower : Str) (row : Row) : Ranked :=
  let nameLower := toLowerCopy row.1
  let pre := startsWith nameLower queryLower
  let dist := editDistanceLevenshtein queryLower nameLower
  let score := if pre then 0 else dist
  (score, pre, row.1)

/-- Comparator of the sort in `suggestionsFor`. -/
def rankedLess (A B : Ranked) : Bool :=
  if A.1 ≠ B.1 then decide (A.1 < B.1)
  else if A.2.1 ≠ B.2.1 then (A.2.1 && !B.2.1)
  else strLt A.2.2 B.2.2

/-- Collection loop of `suggestionsFor`: the arguments are what is left of
`ranked` and `out` so far. -/
def collectSuggestions (maxResults : Nat) : List Ranked → List Str → List Str
  | [], out => out
  | (score, isPre, name) :: rest, out =>
    if !isPre && decide (score > 2) then collectSuggestions maxResults rest out
    else if (out ++ [name]).length ≥ maxResults then out ++ [name]
    else collectSuggestions maxResults rest (out ++ [name])

/-- `suggestionsFor`.  The C++ default `maxResults = 3` is passed
explicitly. -/
def suggestionsFor (queryLower : Str) (allByName : List Row) (maxResults : Nat) : List Str :=
  collectSuggestions maxResults (stdSort rankedLess (allByName.map (rankRow queryLower))) []

/-! ## `main.cpp`: the histogram -/

/-- A value brought back into the range of a 32-bit `int` (two's complement
wrap-around). -/
def wrapInt (x : Int) : Int := (x + 2147483648) % 4294967296 - 2147483648

/-- The `maxCount` loop of `printHistogram`. -/
def histMaxCount (rows : List (Str × Int)) : Int :=
  rows.foldl (fun m r => max m r.2) 0

/-- The `scale` of `printHistogram`. -/
def histScale (maxCount : Int) : Int :=
  if maxCount > 50 then Int.tdiv (wrapInt (maxCount + 49)) 50 else 1

/-- The `bars` of `printHistogram` for one row. -/
def histBars (count scale : Int) : Int :=
  Int.tdiv (wrapInt (wrapInt (count + scale) - 1)) scale

/-- `printHistogram`, reduced to the numbers it prints: `none` stands for the
"(no data)" message, otherwise the result is the scale of the legend and the
bar length of each row. -/
def printHistogram (rows : List (Str × Int)) : Option (Int × List Int) :=
  if rows = [] then none
  else
    let maxCount := histMaxCount rows
    let scale := histScale maxCount
    some (scale, rows.map (fun r => histBars r.2 scale))

/-! ## Specification-level notions for the suggestion engine -/

/-- Cost of substituting `y` for `x`. -/
def substCost (x y : Byte) : Nat := if x = y then 0 else 1

/-- The step of the recursive definition of the Levenshtein distance for a
first string `x :: xs`, given the distance function `levXs` of `xs`. -/
def levCons (x : Byte) (levXs : Str → Nat) : Str → Nat
  | [] => levXs [] + 1
  | y :: ys =>
    min (levXs (y :: ys) + 1) (min (levCons x levXs ys + 1) (levXs ys + substCost x y))

/-- The Levenshtein distance by its standard recursive definition:
`lev [] b = |b|`, `lev a [] = |a|`, and `lev (x :: a) (y :: b)` is the least of
`lev a (y :: b) + 1` (delete `x`), `lev (x :: a) b + 1` (insert `y`) and
`lev a b + [x ≠ y]` (substitute). -/
def lev : Str → Str → Nat
  | [] => fun b => b.length
  | x :: xs => levCons x (lev xs)

/-- The full dynamic-programming table of the edit distance: `levTable a b i j`
is the cell in row `i`, column `j`. -/
def levTable (a b : Str) : Nat → Nat → Nat
  | 0, j => j
  | i + 1, 0 => i + 1
  | i + 1, j + 1 =>
    min (levTable a b i (j + 1) + 1)
      (min (levTable a b (i + 1) j + 1)
        (levTable a b i j + substCost (a.getD i 0) (b.getD j 0)))

/-- A candidate of the suggestion algorithm as the specification describes
it. -/
structure Candidate where
  name : Str
  isPrefixMatch : Bool
  editDistance : Nat
  score : Nat
  deriving DecidableEq, Repr

/-- Steps 1 to 4 of the specified algorithm for one display name. -/
def specCandidate (query name : Str) : Candidate :=
  let lowered := toLowerCopy name
  let isPre := (toLowerCopy query).isPrefixOf lowered
  let dist := lev (toLowerCopy query) lowered
  { name := name, isPrefixMatch := isPre, editDistance := dist,
    score := if isPre then 0 else dist }

/-- Step 5 of the specified algorithm: `A` is ranked strictly before `B`. -/
def specBefore (A B : Candidate) : Bool :=
  decide (A.score < B.score) ||
    (decide (A.score = B.score) &&
      ((A.isPrefixMatch && !B.isPrefixMatch) ||
        (decide (A.isPrefixMatch = B.isPrefixMatch) && strLt A.name B.name)))

/-- Step 6 of the specified algorithm: the candidate survives the filter. -/
def specKeep (c : Candidate) : Bool := c.isPrefixMatch || decide (c.editDistance ≤ 2)

/-- Row of the full table for the first string `a`: the distances from `a` to
`b₁`, to `b₁` with one more character of `b₂`, and so on up to `b₁ ++ b₂`. -/
def levRowFrom (a b₁ : Str) : Str → List Nat
  | [] => [lev a b₁]
  | y :: ys => lev a b₁ :: levRowFrom a (b₁ ++ [y]) ys

/-- Ascending order on scores: `a < b`. -/
def natLt (a b : Nat) : Bool := decide (a < b)

/-- The order `true` before `false` on the prefix flags: `a > b` on `bool`. -/
def boolGt (a b : Bool) : Bool := a && !b

/-- The filter of the collection loop of `suggestionsFor`: the tuple is not
skipped. -/
def keepRanked (t : Ranked) : Bool := !(!t.2.1 && decide (t.1 > 2))

/-- The code's tuple for a candidate of the specification. -/
def Candidate.toRanked (c : Candidate) : Ranked := (c.score, c.isPrefixMatch, c.name)

/-! ## Association-list lemmas -/

theorem mapFind_mapIncr (m : List (Str × Nat)) (k k' : Str) :
    mapFind (mapIncr m k) k' =
      if k = k' then some ((mapFind m k).getD 0 + 1) else mapFind m k' := by
  induction m with
  | nil =>
    by_cases h : k = k' <;> simp [mapIncr, mapFind, h]
  | cons p rest ih =>
    obtain ⟨k0, c⟩ := p
    by_cases h0 : k0 = k
    · subst h0
      by_cases h : k0 = k' <;> simp [mapIncr, mapFind, h]
    · by_cases h : k = k'
      · subst h
        simp [mapIncr, mapFind, h0, ih]
      · by_cases h1 : k0 = k'
        · subst h1
          simp [mapIncr, mapFind, h0, h]
        · simp [mapIncr, mapFind, h0, h1, ih, h]

/-! ## Ingestion: counts -/

theorem loadLine_counts_find (t : FrequencyTable) (line k : Str) :
    ((mapFind (loadLine t line).counts_ k).getD 0) =
      (mapFind t.counts_ k).getD 0 + (if countsFor k line then 1 else 0) := by
  unfold loadLine countsFor
  by_cases he : trim line = []
  · simp [he]
  · by_cases hk : toLower (trim line) = k
    · subst hk
      by_cases hp : mapFind t.pretty_ (toLower (trim line)) = none <;>
        simp [he, hp, mapFind_mapIncr]
    · by_cases hp : mapFind t.pretty_ (toLower (trim line)) = none <;>
        simp [he, hp, hk, mapFind_mapIncr]

theorem foldl_loadLine_counts_find (lines : List Str) (t : FrequencyTable) (k : Str) :
    ((mapFind (lines.foldl loadLine t).counts_ k).getD 0) =
      (mapFind t.counts_ k).getD 0 + lines.countP (countsFor k) := by
  induction lines generalizing t with
  | nil => simp
  | cons l rest ih =>
    rw [List.foldl_cons, ih, loadLine_counts_find, List.countP_cons]
    omega

theorem countOf_eq_getD (t : FrequencyTable) (item : Str) :
    countOf t item = (mapFind t.counts_ (toLower (trim item))).getD 0 := by
  simp only [countOf]
  cases mapFind t.counts_ (toLower (trim item)) <;> rfl

/-- C1: after `load`, `countOf item` is the number of input lines that are
non-empty after trimming and whose lowercased trimmed text equals the
lowercased trimmed `item`; it is `0` exactly when no such line exists, and in
particular whenever `trim item` is empty. -/
theorem countOf_load (t0 : FrequencyTable) (lines : List Str) (item : Str) :
    ∃ t, load t0 (some lines) = Except.ok t ∧
      countOf t item =
        lines.countP (fun l =>
          decide (trim l ≠ [] ∧ toLower (trim l) = toLower (trim item))) ∧
      (countOf t item = 0 ↔
        ∀ l ∈ lines, ¬ (trim l ≠ [] ∧ toLower (trim l) = toLower (trim item))) ∧
      (trim item = [] → countOf t item = 0) := by
  refine ⟨_, rfl, ?_⟩
  have hmain : countOf (lines.foldl loadLine { t0 with counts_ := [], pretty_ := [] }) item =
      lines.countP (fun l =>
        decide (trim l ≠ [] ∧ toLower (trim l) = toLower (trim item))) := by
    rw [countOf_eq_getD, foldl_loadLine_counts_find]
    simp only [mapFind, Option.getD_none, Nat.zero_add]
    rfl
  refine ⟨hmain, ?_, ?_⟩
  · rw [hmain, List.countP_eq_zero]
    simp
  · intro he
    rw [hmain, List.countP_eq_zero]
    intro l _
    simp only [he, toLower, List.map_nil, decide_eq_true_eq, not_and]
    intro h1 h2
    exact h1 (List.map_eq_nil_iff.mp h2)

/-! ## Trimming -/

theorem dropWhile_eq_self_of_initial {α : Type} (p : α → Bool) {t d : List α}
    (h : t <+: d) (hd : d.dropWhile p = d) : t.dropWhile p = t := by
  cases t with
  | nil => rfl
  | cons a t' =>
    obtain ⟨r, hr⟩ := h
    subst hr
    simp only [List.dropWhile_eq_self_iff] at hd ⊢
    intro _
    exact hd (by simp)

theorem trim_trim (s : Str) : trim (trim s) = trim s := by
  unfold trim
  have h1 : ((s.dropWhile isspace).rdropWhile isspace).dropWhile isspace =
      (s.dropWhile isspace).rdropWhile isspace :=
    dropWhile_eq_self_of_initial isspace (List.rdropWhile_prefix _ _)
      (List.dropWhile_idempotent _ _)
  rw [h1, List.rdropWhile_idempotent]

theorem toLower_eq_nil_iff (s : Str) : toLower s = [] ↔ s = [] := by
  unfold toLower
  exact List.map_eq_nil_iff

/-! ## Keys of the association lists -/

theorem mapFind_eq_none_iff {V : Type} (m : List (Str × V)) (k : Str) :
    mapFind m k = none ↔ k ∉ m.map Prod.fst := by
  induction m with
  | nil => simp [mapFind]
  | cons p rest ih =>
    obtain ⟨k0, v⟩ := p
    by_cases h : k0 = k
    · simp [mapFind, h]
    · have h' : ¬ k = k0 := fun e => h e.symm
      simp [mapFind, h, h', ih]

theorem mapFind_eq_some_iff {V : Type} (m : List (Str × V)) (k : Str) (v : V)
    (hn : (m.map Prod.fst).Nodup) : mapFind m k = some v ↔ (k, v) ∈ m := by
  induction m with
  | nil => simp [mapFind]
  | cons p rest ih =>
    obtain ⟨k0, v0⟩ := p
    simp only [List.map_cons, List.nodup_cons] at hn
    by_cases h : k0 = k
    · subst h
      have hnot : ∀ w, (k0, w) ∉ rest := fun w hw =>
        hn.1 (List.mem_map_of_mem Prod.fst hw)
      simp only [mapFind, if_true, Option.some.injEq, List.mem_cons, Prod.mk.injEq, true_and]
      constructor
      · intro e; exact Or.inl e.symm
      · rintro (e | e)
        · exact e.symm
        · exact absurd e (hnot v)
    · have h' : ¬ k = k0 := fun e => h e.symm
      simp [mapFind, h, h', ih hn.2]

theorem mapIncr_of_not_mem (m : List (Str × Nat)) (k : Str) (h : k ∉ m.map Prod.fst) :
    mapIncr m k = m ++ [(k, 1)] := by
  induction m with
  | nil => simp [mapIncr]
  | cons p rest ih =>
    obtain ⟨k0, c⟩ := p
    simp only [List.map_cons, List.mem_cons, not_or] at h
    have h0 : ¬ k0 = k := fun e => h.1 e.symm
    simp [mapIncr, h0, ih h.2]

theorem mapAssign_of_not_mem (m : List (Str × Str)) (k v : Str) (h : k ∉ m.map Prod.fst) :
    mapAssign m k v = m ++ [(k, v)] := by
  induction m with
  | nil => simp [mapAssign]
  | cons p rest ih =>
    obtain ⟨k0, c⟩ := p
    simp only [List.map_cons, List.mem_cons, not_or] at h
    have h0 : ¬ k0 = k := fun e => h.1 e.symm
    simp [mapAssign, h0, ih h.2]

theorem mapIncr_keys_of_mem (m : List (Str × Nat)) (k : Str) (h : k ∈ m.map Prod.fst) :
    (mapIncr m k).map Prod.fst = m.map Prod.fst := by
  induction m with
  | nil => simp at h
  | cons p rest ih =>
    obtain ⟨k0, c⟩ := p
    by_cases h0 : k0 = k
    · simp [mapIncr, h0]
    · have hr : k ∈ rest.map Prod.fst := by
        simp only [List.map_cons, List.mem_cons] at h
        rcases h with e | e
        · exact absurd e.symm h0
        · exact e
      simp [mapIncr, h0, ih hr]

theorem mapIncr_pos (m : List (Str × Nat)) (k : Str) (h : ∀ kc ∈ m, 1 ≤ kc.2) :
    ∀ kc ∈ mapIncr m k, 1 ≤ kc.2 := by
  induction m with
  | nil => simp [mapIncr]
  | cons p rest ih =>
    obtain ⟨k0, c⟩ := p
    have hr : ∀ kc ∈ rest, 1 ≤ kc.2 := fun kc hkc => h kc (List.mem_cons_of_mem _ hkc)
    by_cases h0 : k0 = k
    · intro kc hkc
      simp only [mapIncr, h0, if_true, List.mem_cons] at hkc
      rcases hkc with e | e
      · subst e; simp
      · exact hr kc e
    · intro kc hkc
      simp only [mapIncr, h0, if_false, List.mem_cons] at hkc
      rcases hkc with e | e
      · subst e; exact h _ (List.mem_cons_self _ _)
      · exact ih hr kc e

theorem mapIncr_sum (m : List (Str × Nat)) (k : Str) :
    ((mapIncr m k).map Prod.snd).sum = (m.map Prod.snd).sum + 1 := by
  induction m with
  | nil => simp [mapIncr]
  | cons p rest ih =>
    obtain ⟨k0, c⟩ := p
    by_cases h0 : k0 = k
    · simp [mapIncr, h0]; omega
    · simp [mapIncr, h0, ih]; omega

theorem mem_keys_mapIncr (m : List (Str × Nat)) (k k' : Str) :
    k' ∈ (mapIncr m k).map Prod.fst ↔ k' = k ∨ k' ∈ m.map Prod.fst := by
  have h1 := mapFind_eq_none_iff (mapIncr m k) k'
  have h2 := mapFind_eq_none_iff m k'
  rw [mapFind_mapIncr] at h1
  by_cases h : k = k'
  · subst h
    simp only [if_true] at h1
    constructor
    · intro _; exact Or.inl rfl
    · intro _
      by_contra hc
      exact absurd (h1.mpr hc) (by simp)
  · simp only [h, if_false] at h1
    have h' : ¬ k' = k := fun e => h e.symm
    constructor
    · intro hm
      right
      by_contra hc
      exact (h1.mp (h2.mpr hc)) hm
    · rintro (e | e)
      · exact absurd e h'
      · by_contra hc
        exact (h2.mp (h1.mpr hc)) e

/-! ## The representation invariant -/

theorem wellFormed_cleared (t0 : FrequencyTable) :
    WellFormed { t0 with counts_ := [], pretty_ := [] } :=
  ⟨rfl, List.nodup_nil, by simp, by simp⟩

theorem wellFormed_loadLine (t : FrequencyTable) (line : Str) (h : WellFormed t) :
    WellFormed (loadLine t line) := by
  unfold loadLine
  by_cases he : trim line = []
  · simpa [he] using h
  · simp only [he, if_false]
    by_cases hp : mapFind t.pretty_ (toLower (trim line)) = none
    · have hnp : toLower (trim line) ∉ t.pretty_.map Prod.fst :=
        (mapFind_eq_none_iff _ _).mp hp
      have hnc : toLower (trim line) ∉ t.counts_.map Prod.fst := h.keys_eq ▸ hnp
      simp only [hp, if_true]
      rw [mapIncr_of_not_mem _ _ hnc, mapAssign_of_not_mem _ _ _ hnp]
      refine ⟨?_, ?_, ?_, ?_⟩
      · simp [h.keys_eq]
      · simp only [List.map_append, List.map_cons, List.map_nil]
        refine List.Nodup.append h.nodup (List.nodup_singleton _) ?_
        intro a ha hb
        rw [List.mem_singleton] at hb
        exact hnc (hb ▸ ha)
      · intro kc hkc
        simp only [List.mem_append, List.mem_singleton] at hkc
        rcases hkc with e | e
        · exact h.pos kc e
        · subst e; exact le_refl 1
      · intro kd hkd
        simp only [List.mem_append, List.mem_singleton] at hkd
        rcases hkd with e | e
        · exact h.display kd e
        · subst e; exact ⟨he, trim_trim line, rfl⟩
    · have hmp : toLower (trim line) ∈ t.pretty_.map Prod.fst := by
        by_contra hc
        exact hp ((mapFind_eq_none_iff _ _).mpr hc)
      have hmc : toLower (trim line) ∈ t.counts_.map Prod.fst := h.keys_eq ▸ hmp
      simp only [hp, if_false]
      refine ⟨?_, ?_, ?_, ?_⟩
      · simp only [mapIncr_keys_of_mem _ _ hmc]; exact h.keys_eq
      · simp only [mapIncr_keys_of_mem _ _ hmc]; exact h.nodup
      · exact mapIncr_pos _ _ h.pos
      · exact h.display

theorem wellFormed_foldl (lines : List Str) (t : FrequencyTable) (h : WellFormed t) :
    WellFormed (lines.foldl loadLine t) := by
  induction lines generalizing t with
  | nil => exact h
  | cons l rest ih => exact ih _ (wellFormed_loadLine t l h)

/-! ## Ingestion: totals and key set -/

theorem totalPurchases_eq_sum (t : FrequencyTable) :
    totalPurchases t = (t.counts_.map Prod.snd).sum := by
  unfold totalPurchases
  have key : ∀ (m : List (Str × Nat)) (a : Nat),
      m.foldl (fun sum kv => sum + kv.2) a = a + (m.map Prod.snd).sum := by
    intro m
    induction m with
    | nil => intro a; simp
    | cons p rest ih => intro a; simp [ih]; omega
  simpa using key t.counts_ 0

theorem loadLine_sum (t : FrequencyTable) (line : Str) :
    ((loadLine t line).counts_.map Prod.snd).sum =
      (t.counts_.map Prod.snd).sum + (if trim line ≠ [] then 1 else 0) := by
  unfold loadLine
  by_cases he : trim line = []
  · simp [he]
  · by_cases hp : mapFind t.pretty_ (toLower (trim line)) = none <;>
      simp [he, hp, mapIncr_sum]

theorem foldl_loadLine_sum (lines : List Str) (t : FrequencyTable) :
    ((lines.foldl loadLine t).counts_.map Prod.snd).sum =
      (t.counts_.map Prod.snd).sum + lines.countP (fun l => decide (trim l ≠ [])) := by
  induction lines generalizing t with
  | nil => simp
  | cons l rest ih =>
    rw [List.foldl_cons, ih, loadLine_sum, List.countP_cons]
    by_cases he : trim l = []
    · simp [he]
    · simp [he]; omega

theorem mem_keys_loadLine (t : FrequencyTable) (line k : Str) :
    k ∈ (loadLine t line).counts_.map Prod.fst ↔
      k ∈ t.counts_.map Prod.fst ∨ countsFor k line = true := by
  unfold loadLine countsFor
  by_cases he : trim line = []
  · simp [he]
  · by_cases hp : mapFind t.pretty_ (toLower (trim line)) = none <;>
      simp only [he, hp, if_true, if_false, mem_keys_mapIncr, ne_eq, not_false_eq_true,
        true_and, decide_eq_true_eq] <;>
      constructor <;> rintro (e | e) <;> first
        | exact Or.inl e
        | exact Or.inr e
        | exact Or.inr e.symm
        | exact Or.inl e.symm

theorem mem_keys_foldl (lines : List Str) (t : FrequencyTable) (k : Str) :
    k ∈ (lines.foldl loadLine t).counts_.map Prod.fst ↔
      k ∈ t.counts_.map Prod.fst ∨ ∃ l ∈ lines, countsFor k l = true := by
  induction lines generalizing t with
  | nil => simp
  | cons l rest ih =>
    rw [List.foldl_cons, ih, mem_keys_loadLine]
    simp only [List.mem_cons, exists_eq_or_imp]
    tauto

theorem mem_normKeys (lines : List Str) (k : Str) :
    k ∈ normKeys lines ↔ ∃ l ∈ lines, countsFor k l = true := by
  unfold normKeys countsFor
  simp only [List.mem_map, List.mem_filter, decide_eq_true_eq]
  constructor
  · rintro ⟨s, ⟨⟨l, hl, rfl⟩, hne⟩, rfl⟩
    exact ⟨l, hl, hne, rfl⟩
  · rintro ⟨l, hl, hne, rfl⟩
    exact ⟨trim l, ⟨⟨l, hl, rfl⟩, hne⟩, rfl⟩

/-- C2: after `load`, `totalPurchases` is the sum of the stored counts, which is
the number of input lines that are non-empty after trimming, and
`uniqueItemCount` is the number of distinct normalized keys of those lines. -/
theorem totals_load (t0 : FrequencyTable) (lines : List Str) :
    ∃ t, load t0 (some lines) = Except.ok t ∧
      totalPurchases t = (t.counts_.map Prod.snd).sum ∧
      totalPurchases t = lines.countP (fun l => decide (trim l ≠ [])) ∧
      uniqueItemCount t =
        (((lines.map trim).filter (fun s => decide (s ≠ []))).map toLower).dedup.length := by
  refine ⟨_, rfl, totalPurchases_eq_sum _, ?_, ?_⟩
  · rw [totalPurchases_eq_sum, foldl_loadLine_sum]
    simp
  · have hwf := wellFormed_foldl lines _ (wellFormed_cleared t0)
    have hperm : ((lines.foldl loadLine { t0 with counts_ := [], pretty_ := [] }).counts_.map
        Prod.fst).Perm (normKeys lines).dedup := by
      rw [List.perm_ext_iff_of_nodup hwf.nodup (List.nodup_dedup _)]
      intro k
      rw [List.mem_dedup, mem_normKeys, mem_keys_foldl]
      simp
    have hlen := hperm.length_eq
    simp only [List.length_map] at hlen
    exact hlen

/-! ## Byte-wise string order -/

theorem strLt_irrefl (a : Str) : strLt a a = false := by
  induction a with
  | nil => rfl
  | cons x xs ih => simp [strLt, ih]

theorem strLt_trans : ∀ a b c : Str, strLt a b = true → strLt b c = true → strLt a c = true
  | [], [], _, h, _ => by simp [strLt] at h
  | [], _ :: _, [], _, h => by simp [strLt] at h
  | [], _ :: _, _ :: _, _, _ => by simp [strLt]
  | _ :: _, [], _, h, _ => by simp [strLt] at h
  | _ :: _, _ :: _, [], _, h => by simp [strLt] at h
  | x :: xs, y :: ys, z :: zs, h1, h2 => by
    have ih := strLt_trans xs ys zs
    simp only [strLt, Fin.lt_def] at h1 h2 ⊢
    split_ifs at h1 h2 ⊢ <;> first
      | rfl
      | (exfalso; omega)
      | exact ih h1 h2

theorem strLt_total : ∀ a b : Str, strLt a b = false → strLt b a = false → a = b
  | [], [], _, _ => rfl
  | [], _ :: _, h, _ => by simp [strLt] at h
  | _ :: _, [], _, h => by simp [strLt] at h
  | x :: xs, y :: ys, h1, h2 => by
    have ih := strLt_total xs ys
    simp only [strLt, Fin.lt_def] at h1 h2
    split_ifs at h1 h2 with c1 c2
    have hxy : x = y := Fin.ext (by omega)
    rw [hxy, ih h1 h2]

theorem strictTotal_strLt : StrictTotal strLt :=
  ⟨strLt_irrefl, strLt_trans, strLt_total⟩

theorem strictTotal_natGt : StrictTotal natGt := by
  refine ⟨?_, ?_, ?_⟩
  · intro a; simp [natGt]
  · intro a b c h1 h2
    simp only [natGt, decide_eq_true_eq] at h1 h2 ⊢
    omega
  · intro a b h1 h2
    simp only [natGt, decide_eq_false_iff_not] at h1 h2
    omega

/-! ## Orders built from keys -/

theorem StrictTotal.asymm {κ : Type} {lt : κ → κ → Bool} (h : StrictTotal lt)
    (a b : κ) (hab : lt a b = true) : lt b a = false := by
  cases hba : lt b a with
  | false => rfl
  | true =>
    have := h.trans a b a hab hba
    rw [h.irrefl] at this
    exact absurd this (by simp)

theorem strictTotal_lexLt {κ₁ κ₂ : Type} [DecidableEq κ₁] {lt₁ : κ₁ → κ₁ → Bool}
    {lt₂ : κ₂ → κ₂ → Bool} (h₁ : StrictTotal lt₁) (h₂ : StrictTotal lt₂) :
    StrictTotal (lexLt lt₁ lt₂) := by
  refine ⟨?_, ?_, ?_⟩
  · intro a
    simp [lexLt, h₂.irrefl]
  · rintro ⟨a1, a2⟩ ⟨b1, b2⟩ ⟨c1, c2⟩ hab hbc
    simp only [lexLt] at hab hbc ⊢
    by_cases e1 : a1 = b1
    · subst e1
      by_cases e2 : a1 = c1
      · subst e2
        simp only [if_true] at hab hbc ⊢
        exact h₂.trans _ _ _ hab hbc
      · simp only [e2, if_false, if_true] at hab hbc ⊢
        exact hbc
    · by_cases e2 : b1 = c1
      · subst e2
        simp only [e1, if_false, if_true] at hab hbc ⊢
        exact hab
      · simp only [e1, e2, if_false] at hab hbc
        have hac := h₁.trans _ _ _ hab hbc
        by_cases e3 : a1 = c1
        · subst e3
          rw [h₁.asymm _ _ hab] at hbc
          exact absurd hbc (by simp)
        · simp only [e3, if_false]
          exact hac
  · rintro ⟨a1, a2⟩ ⟨b1, b2⟩ hab hba
    simp only [lexLt] at hab hba
    by_cases e1 : a1 = b1
    · subst e1
      simp only [if_true] at hab hba
      rw [h₂.total _ _ hab hba]
    · have e1' : ¬ b1 = a1 := fun e => e1 e.symm
      simp only [e1, e1', if_false] at hab hba
      exact absurd (h₁.total _ _ hab hba) e1

theorem strictWeak_of_key {α κ : Type} {lt : κ → κ → Bool} (h : StrictTotal lt)
    (key : α → κ) : StrictWeak (fun a b => lt (key a) (key b)) := by
  refine ⟨fun a b hab => h.asymm _ _ hab, ?_⟩
  intro a b c hba hcb
  cases hca : lt (key c) (key a) with
  | false => rfl
  | true =>
    exfalso
    cases hab : lt (key a) (key b) with
    | true =>
      have := h.trans _ _ _ hca hab
      simp only at hcb
      rw [this] at hcb
      exact absurd hcb (by simp)
    | false =>
      have e : key a = key b := h.total _ _ hab hba
      simp only at hcb
      rw [← e, hca] at hcb
      exact absurd hcb (by simp)

theorem nameLess_eq_key : nameLess = fun a b => lexLt strLt strLt (nameKey a) (nameKey b) := by
  funext a b
  simp [nameLess, lexLt, nameKey]

theorem freqLess_eq_key :
    freqLess = fun a b => lexLt natGt (lexLt strLt strLt) (freqKey a) (freqKey b) := by
  funext a b
  by_cases h : a.2 = b.2 <;> simp [freqLess, lexLt, nameKey, freqKey, natGt, h]

theorem strictTotal_nameKey : StrictTotal (lexLt strLt strLt) :=
  strictTotal_lexLt strictTotal_strLt strictTotal_strLt

theorem strictTotal_freqKey : StrictTotal (lexLt natGt (lexLt strLt strLt)) :=
  strictTotal_lexLt strictTotal_natGt strictTotal_nameKey

theorem strictWeak_nameLess : StrictWeak nameLess := by
  rw [nameLess_eq_key]
  exact strictWeak_of_key strictTotal_nameKey nameKey

theorem strictWeak_freqLess : StrictWeak freqLess := by
  rw [freqLess_eq_key]
  exact strictWeak_of_key strictTotal_freqKey freqKey

/-- Rows that `nameLess` cannot tell apart have the same display name. -/
theorem nameLess_equiv_name (a b : Row) (h1 : nameLess a b = false)
    (h2 : nameLess b a = false) : a.1 = b.1 := by
  rw [nameLess_eq_key] at h1 h2
  have := strictTotal_nameKey.total _ _ h1 h2
  simp only [nameKey, Prod.mk.injEq] at this
  exact this.2

/-- Rows that `freqLess` cannot tell apart are equal. -/
theorem freqLess_equiv_eq (a b : Row) (h1 : freqLess a b = false)
    (h2 : freqLess b a = false) : a = b := by
  rw [freqLess_eq_key] at h1 h2
  have := strictTotal_freqKey.total _ _ h1 h2
  simp only [freqKey, nameKey, Prod.mk.injEq] at this
  exact Prod.ext this.2.2 this.1

/-! ## Sorting -/

theorem sortInsert_perm {α : Type} (comp : α → α → Bool) (x : α) (l : List α) :
    (sortInsert comp x l).Perm (x :: l) := by
  induction l with
  | nil => exact List.Perm.refl _
  | cons y ys ih =>
    simp only [sortInsert]
    split_ifs
    · exact List.Perm.refl _
    · exact (List.Perm.cons y ih).trans (List.Perm.swap x y ys)

theorem stdSort_perm {α : Type} (comp : α → α → Bool) (l : List α) :
    (stdSort comp l).Perm l := by
  induction l with
  | nil => exact List.Perm.refl _
  | cons x xs ih =>
    simp only [stdSort]
    exact (sortInsert_perm comp x _).trans (List.Perm.cons x ih)

theorem sortInsert_sorted {α : Type} {comp : α → α → Bool} (h : StrictWeak comp) (x : α)
    (l : List α) (hl : l.Pairwise (fun a b => comp b a = false)) :
    (sortInsert comp x l).Pairwise (fun a b => comp b a = false) := by
  induction l with
  | nil => simp [sortInsert]
  | cons y ys ih =>
    rw [List.pairwise_cons] at hl
    simp only [sortInsert]
    split_ifs with hxy
    · refine List.pairwise_cons.mpr ⟨?_, List.pairwise_cons.mpr hl⟩
      intro z hz
      have hyx : comp y x = false := h.asymm _ _ hxy
      rcases List.mem_cons.mp hz with e | e
      · rw [e]; exact hyx
      · exact h.negTrans x y z hyx (hl.1 z e)
    · refine List.pairwise_cons.mpr ⟨?_, ih hl.2⟩
      intro z hz
      have hz' := (sortInsert_perm comp x ys).mem_iff.mp hz
      rcases List.mem_cons.mp hz' with e | e
      · rw [e]; simpa using hxy
      · exact hl.1 z e

theorem stdSort_sorted {α : Type} {comp : α → α → Bool} (h : StrictWeak comp) (l : List α) :
    (stdSort comp l).Pairwise (fun a b => comp b a = false) := by
  induction l with
  | nil => simp [stdSort]
  | cons x xs ih => exact sortInsert_sorted h x _ ih

/-- Two sorted arrangements of the same elements coincide when the comparator
tells any two different elements apart. -/
theorem sorted_perm_unique {α : Type} (comp : α → α → Bool) :
    ∀ (l₁ l₂ : List α), l₁.Perm l₂ →
      l₁.Pairwise (fun a b => comp b a = false) →
      l₂.Pairwise (fun a b => comp b a = false) →
      (∀ a ∈ l₁, ∀ b ∈ l₁, comp a b = false → comp b a = false → a = b) → l₁ = l₂
  | [], l₂, hp, _, _, _ => (List.Perm.nil_eq hp)
  | a :: t₁, [], hp, _, _, _ => by
    have := hp.length_eq
    simp at this
  | a :: t₁, b :: t₂, hp, h1, h2, hinj => by
    rw [List.pairwise_cons] at h1 h2
    have hab : a = b := by
      by_contra hne
      have ha : a ∈ t₂ := by
        have := hp.mem_iff.mp (List.mem_cons_self a t₁)
        rcases List.mem_cons.mp this with e | e
        · exact absurd e hne
        · exact e
      have hb : b ∈ t₁ := by
        have := hp.mem_iff.mpr (List.mem_cons_self b t₂)
        rcases List.mem_cons.mp this with e | e
        · exact absurd e.symm hne
        · exact e
      exact hne (hinj a (List.mem_cons_self _ _) b (List.mem_cons_of_mem _ hb)
        (h2.1 a ha) (h1.1 b hb))
    subst hab
    have ht : t₁ = t₂ := sorted_perm_unique comp t₁ t₂ (List.Perm.cons_inv hp) h1.2 h2.2
      (fun x hx y hy => hinj x (List.mem_cons_of_mem _ hx) y (List.mem_cons_of_mem _ hy))
    rw [ht]

/-- Every correct sort of `l` returns what `stdSort` returns, provided the
comparator tells any two different elements of `l` apart. -/
theorem stdSort_unique {α : Type} {comp : α → α → Bool} (h : StrictWeak comp)
    (l out : List α) (hperm : out.Perm l)
    (hsorted : out.Pairwise (fun a b => comp b a = false))
    (hinj : ∀ a ∈ l, ∀ b ∈ l, comp a b = false → comp b a = false → a = b) :
    out = stdSort comp l := by
  refine sorted_perm_unique comp out (stdSort comp l)
    (hperm.trans (stdSort_perm comp l).symm) hsorted (stdSort_sorted h l) ?_
  intro a ha b hb
  exact hinj a (hperm.mem_iff.mp ha) b (hperm.mem_iff.mp hb)

/-! ## Ingestion: display names -/

theorem mapFind_append_singleton {V : Type} (m : List (Str × V)) (k0 k : Str) (v : V) :
    mapFind (m ++ [(k0, v)]) k =
      (mapFind m k).orElse (fun _ => if k0 = k then some v else none) := by
  induction m with
  | nil => simp [mapFind]
  | cons p rest ih =>
    obtain ⟨k1, v1⟩ := p
    by_cases h : k1 = k
    · simp [mapFind, h]
    · simp [mapFind, h, ih]

theorem loadLine_pretty_find (t : FrequencyTable) (line k : Str) :
    mapFind (loadLine t line).pretty_ k =
      (mapFind t.pretty_ k).orElse
        (fun _ => if countsFor k line then some (trim line) else none) := by
  unfold loadLine countsFor
  by_cases he : trim line = []
  · cases hf : mapFind t.pretty_ k <;> simp [he, hf]
  · simp only [he, if_false]
    by_cases hp : mapFind t.pretty_ (toLower (trim line)) = none
    · simp only [hp, if_true]
      rw [mapAssign_of_not_mem _ _ _ ((mapFind_eq_none_iff _ _).mp hp),
        mapFind_append_singleton]
      simp [he]
    · simp only [hp, if_false]
      by_cases hk : toLower (trim line) = k
      · subst hk
        obtain ⟨d, hd⟩ := Option.ne_none_iff_exists'.mp hp
        simp [hd]
      · cases mapFind t.pretty_ k <;> simp [hk]

theorem foldl_loadLine_pretty_find (lines : List Str) (t : FrequencyTable) (k : Str) :
    mapFind (lines.foldl loadLine t).pretty_ k =
      (mapFind t.pretty_ k).orElse
        (fun _ => (lines.find? (countsFor k)).map trim) := by
  induction lines generalizing t with
  | nil => cases hf : mapFind t.pretty_ k <;> simp [hf]
  | cons l rest ih =>
    rw [List.foldl_cons, ih, loadLine_pretty_find]
    cases mapFind t.pretty_ k with
    | some d => simp
    | none =>
      by_cases hc : countsFor k l = true
      · simp [hc, List.find?_cons]
      · simp [hc, List.find?_cons]

theorem countsFor_of_ne_nil (k : Str) (hk : k ≠ []) :
    countsFor k = fun l => decide (toLower (trim l) = k) := by
  funext l
  unfold countsFor
  by_cases h : toLower (trim l) = k
  · have hne : trim l ≠ [] := by
      intro e
      rw [e] at h
      exact hk h.symm
    simp [h, hne]
  · simp [h]

/-! ## The rows of a well-formed table -/

theorem collectRows_eq (t : FrequencyTable) (cs : List (Str × Nat))
    (h : ∀ kc ∈ cs, kc.1 ∈ t.pretty_.map Prod.fst) :
    collectRows t cs =
      Except.ok (cs.map (fun kc => ((mapFind t.pretty_ kc.1).getD [], kc.2))) := by
  induction cs with
  | nil => rfl
  | cons p rest ih =>
    obtain ⟨k, c⟩ := p
    have hk : mapFind t.pretty_ k ≠ none := fun e =>
      (mapFind_eq_none_iff _ _).mp e (h (k, c) (List.mem_cons_self _ _))
    obtain ⟨d, hd⟩ := Option.ne_none_iff_exists'.mp hk
    have hrest := ih (fun kc hkc => h kc (List.mem_cons_of_mem _ hkc))
    simp only [collectRows, mapAt, hd, hrest, List.map_cons, Option.getD_some]

theorem collectRows_wellFormed (t : FrequencyTable) (h : WellFormed t) :
    collectRows t t.counts_ = Except.ok (entriesOf t) := by
  refine collectRows_eq t t.counts_ ?_
  intro kc hkc
  rw [h.keys_eq]
  exact List.mem_map_of_mem Prod.fst hkc

theorem mapFind_pretty_of_mem (t : FrequencyTable) (h : WellFormed t) (kc : Str × Nat)
    (hkc : kc ∈ t.counts_) :
    ∃ d, mapFind t.pretty_ kc.1 = some d ∧ d ≠ [] ∧ trim d = d ∧ toLower d = kc.1 := by
  have hk : mapFind t.pretty_ kc.1 ≠ none := fun e =>
    (mapFind_eq_none_iff _ _).mp e (h.keys_eq ▸ List.mem_map_of_mem Prod.fst hkc)
  obtain ⟨d, hd⟩ := Option.ne_none_iff_exists'.mp hk
  have hmem : (kc.1, d) ∈ t.pretty_ :=
    (mapFind_eq_some_iff _ _ _ (h.keys_eq ▸ h.nodup)).mp hd
  have := h.display _ hmem
  exact ⟨d, hd, this.1, this.2.1, this.2.2⟩

/-- Reading a row back as `(key, count)` recovers the count map. -/
theorem entriesOf_keys (t : FrequencyTable) (h : WellFormed t) :
    (entriesOf t).map (fun r => (toLower r.1, r.2)) = t.counts_ := by
  unfold entriesOf
  rw [List.map_map]
  conv_rhs => rw [← List.map_id t.counts_]
  refine List.map_congr_left ?_
  intro kc hkc
  obtain ⟨d, hd, _, _, hlow⟩ := mapFind_pretty_of_mem t h kc hkc
  simp [hd, hlow]

theorem entriesOf_spec (t : FrequencyTable) (h : WellFormed t) (r : Row)
    (hr : r ∈ entriesOf t) :
    (toLower r.1, r.2) ∈ t.counts_ ∧ mapFind t.pretty_ (toLower r.1) = some r.1 ∧
      r.1 ≠ [] ∧ trim r.1 = r.1 ∧ 1 ≤ r.2 := by
  unfold entriesOf at hr
  obtain ⟨kc, hkc, rfl⟩ := List.mem_map.mp hr
  obtain ⟨d, hd, hne, htrim, hlow⟩ := mapFind_pretty_of_mem t h kc hkc
  have e : ((mapFind t.pretty_ kc.1).getD [], kc.2) = (d, kc.2) := by rw [hd]; rfl
  rw [e]
  show (toLower d, kc.2) ∈ t.counts_ ∧ mapFind t.pretty_ (toLower d) = some d ∧
    d ≠ [] ∧ trim d = d ∧ 1 ≤ kc.2
  rw [hlow]
  exact ⟨hkc, hd, hne, htrim, h.pos kc hkc⟩

theorem entriesOf_lower_nodup (t : FrequencyTable) (h : WellFormed t) :
    ((entriesOf t).map (fun r => toLower r.1)).Nodup := by
  have := entriesOf_keys t h
  have h2 : (entriesOf t).map (fun r => toLower r.1) = t.counts_.map Prod.fst := by
    rw [← this, List.map_map]
    rfl
  rw [h2]
  exact h.nodup

theorem wellFormed_load (t0 : FrequencyTable) (lines : List Str) :
    ∃ t, load t0 (some lines) = Except.ok t ∧ WellFormed t ∧
      t = lines.foldl loadLine { t0 with counts_ := [], pretty_ := [] } :=
  ⟨_, rfl, wellFormed_foldl lines _ (wellFormed_cleared t0), rfl⟩

/-! ## The sorted views of a well-formed table -/

theorem itemsSortedByName_wellFormed (t : FrequencyTable) (h : WellFormed t) :
    itemsSortedByName t = Except.ok (stdSort nameLess (entriesOf t)) := by
  simp only [itemsSortedByName, collectRows_wellFormed t h]

theorem itemsSortedByFreqDesc_wellFormed (t : FrequencyTable) (h : WellFormed t) :
    itemsSortedByFreqDesc t = Except.ok (stdSort freqLess (entriesOf t)) := by
  simp only [itemsSortedByFreqDesc, collectRows_wellFormed t h]

theorem itemsSortedByFreqAsc_wellFormed (t : FrequencyTable) (h : WellFormed t) :
    itemsSortedByFreqAsc t = Except.ok (stdSort freqLess (entriesOf t)).reverse := by
  simp only [itemsSortedByFreqAsc, itemsSortedByFreqDesc_wellFormed t h]

/-- The display name stored for a key of a freshly loaded table is the trimmed
text of the first input line that normalizes to that key. -/
theorem first_seen_key (t0 : FrequencyTable) (lines : List Str) (k : Str)
    (hk : k ∈ (lines.foldl loadLine { t0 with counts_ := [], pretty_ := [] }).counts_.map
      Prod.fst) :
    ∃ l, lines.find? (fun l => decide (toLower (trim l) = k)) = some l ∧
      mapFind (lines.foldl loadLine { t0 with counts_ := [], pretty_ := [] }).pretty_ k =
        some (trim l) := by
  have hwf := wellFormed_foldl lines _ (wellFormed_cleared t0)
  obtain ⟨kc, hkc, hkc1⟩ := List.mem_map.mp hk
  obtain ⟨d, hd, hne, _, hlow⟩ := mapFind_pretty_of_mem _ hwf kc hkc
  rw [hkc1] at hd hlow
  have hknil : k ≠ [] := by
    intro e
    rw [e] at hlow
    exact hne ((toLower_eq_nil_iff d).mp hlow)
  have hfind := foldl_loadLine_pretty_find lines { t0 with counts_ := [], pretty_ := [] } k
  rw [hd, countsFor_of_ne_nil k hknil] at hfind
  simp only [mapFind, Option.orElse] at hfind
  cases hl : lines.find? (fun l => decide (toLower (trim l) = k)) with
  | none => rw [hl] at hfind; simp at hfind
  | some l =>
    rw [hl] at hfind
    simp only [Option.map_some', Option.some.injEq] at hfind
    exact ⟨l, rfl, by rw [hd, hfind]⟩

/-- C3: in each sorted view of a loaded table, the display name reported for a
key is the trimmed text of the first input line whose lowercased trimmed text
is that key, whatever the case of later lines; e.g. the lines `Apples`,
`apples`, `APPLES` give the single row `(Apples, 3)`. -/
theorem displayName_first_seen (t0 : FrequencyTable) (lines : List Str) :
    (∃ t byName desc asc, load t0 (some lines) = Except.ok t ∧
      itemsSortedByName t = Except.ok byName ∧
      itemsSortedByFreqDesc t = Except.ok desc ∧
      itemsSortedByFreqAsc t = Except.ok asc ∧
      ∀ view ∈ [byName, desc, asc], ∀ k ∈ t.counts_.map Prod.fst,
        ∃ l, lines.find? (fun l => decide (toLower (trim l) = k)) = some l ∧
          (∃ c, (trim l, c) ∈ view) ∧
          ∀ row ∈ view, toLower row.1 = k → row.1 = trim l) ∧
    (∃ t, load t0 (some [bytes "Apples", bytes "apples", bytes "APPLES"]) = Except.ok t ∧
      itemsSortedByName t = Except.ok [(bytes "Apples", 3)] ∧
      itemsSortedByFreqDesc t = Except.ok [(bytes "Apples", 3)] ∧
      itemsSortedByFreqAsc t = Except.ok [(bytes "Apples", 3)]) := by
  constructor
  · have hwf := wellFormed_foldl lines _ (wellFormed_cleared t0)
    refine ⟨_, _, _, _, rfl, itemsSortedByName_wellFormed _ hwf,
      itemsSortedByFreqDesc_wellFormed _ hwf, itemsSortedByFreqAsc_wellFormed _ hwf, ?_⟩
    intro view hview k hk
    have hmem : ∀ r, r ∈ view ↔
        r ∈ entriesOf (lines.foldl loadLine { t0 with counts_ := [], pretty_ := [] }) := by
      intro r
      simp only [List.mem_cons, List.mem_singleton, List.not_mem_nil, or_false] at hview
      rcases hview with e | e | e
      · rw [e]; exact (stdSort_perm _ _).mem_iff
      · rw [e]; exact (stdSort_perm _ _).mem_iff
      · rw [e, List.mem_reverse]; exact (stdSort_perm _ _).mem_iff
    obtain ⟨l, hl, hd⟩ := first_seen_key t0 lines k hk
    refine ⟨l, hl, ?_, ?_⟩
    · obtain ⟨kc, hkc, hkc1⟩ := List.mem_map.mp hk
      refine ⟨kc.2, (hmem _).mpr ?_⟩
      unfold entriesOf
      refine List.mem_map.mpr ⟨kc, hkc, ?_⟩
      rw [hkc1, hd]
      rfl
    · intro row hrow hkey
      have := (entriesOf_spec _ hwf row ((hmem row).mp hrow)).2.1
      rw [hkey, hd] at this
      exact (Option.some.inj this).symm
  · exact ⟨_, rfl, rfl, rfl, rfl⟩

/-- C4: on a loaded table, two non-empty, whitespace-trimmed strings that
differ only in letter case have the same `countOf`. -/
theorem countOf_case_insensitive (t0 : FrequencyTable) (lines : List Str) (a b : Str)
    (_ha : a ≠ []) (hta : trim a = a) (_hb : b ≠ []) (htb : trim b = b)
    (hab : toLower a = toLower b) :
    ∃ t, load t0 (some lines) = Except.ok t ∧ countOf t a = countOf t b := by
  refine ⟨_, rfl, ?_⟩
  rw [countOf_eq_getD, countOf_eq_getD, hta, htb, hab]

/-- The case-insensitivity of `countOf` at the queries `APPLES` and `Apples`
on a table loaded from the lines ` apples`, `Pears`, `Apples`. -/
theorem countOf_case_insensitive_witness :
    (bytes "APPLES" ≠ [] ∧ trim (bytes "APPLES") = bytes "APPLES" ∧
      bytes "Apples" ≠ [] ∧ trim (bytes "Apples") = bytes "Apples" ∧
      toLower (bytes "APPLES") = toLower (bytes "Apples")) ∧
    ∃ t, load ⟨[], [], []⟩ (some [bytes " apples", bytes "Pears", bytes "Apples"]) =
        Except.ok t ∧
      countOf t (bytes "APPLES") = countOf t (bytes "Apples") :=
  ⟨by decide,
    countOf_case_insensitive ⟨[], [], []⟩ [bytes " apples", bytes "Pears", bytes "Apples"]
      (bytes "APPLES") (bytes "Apples") (by decide) (by decide) (by decide) (by decide)
      (by decide)⟩

theorem nameAscending_of_not_less (x y : Row) (h : nameLess y x = false) :
    NameAscending x y := by
  unfold NameAscending
  simp only [nameLess] at h
  by_cases e : toLower y.1 = toLower x.1
  · simp only [e, if_true] at h
    right
    refine ⟨e.symm, ?_⟩
    cases hxy : strLt x.1 y.1 with
    | true => exact Or.inl rfl
    | false => exact Or.inr (strLt_total _ _ hxy h)
  · simp only [e, if_false] at h
    left
    cases hxy : strLt (toLower x.1) (toLower y.1) with
    | true => rfl
    | false => exact absurd (strLt_total _ _ hxy h).symm e

/-- C5: `itemsSortedByName` of a loaded table returns exactly one row per key
of the table, carrying that key's display name and count, and consecutive rows
are in case-insensitive ascending name order with the exact display name as
tie-break. -/
theorem itemsSortedByName_sorted_perm (t0 : FrequencyTable) (lines : List Str) :
    ∃ t out, load t0 (some lines) = Except.ok t ∧
      itemsSortedByName t = Except.ok out ∧
      (out.map (fun r => (toLower r.1, r.2))).Perm t.counts_ ∧
      (t.counts_.map Prod.fst).Nodup ∧
      (∀ r ∈ out, mapFind t.pretty_ (toLower r.1) = some r.1) ∧
      out.Perm (entriesOf t) ∧
      out.Chain' NameAscending := by
  have hwf := wellFormed_foldl lines _ (wellFormed_cleared t0)
  refine ⟨_, _, rfl, itemsSortedByName_wellFormed _ hwf, ?_, hwf.nodup, ?_,
    stdSort_perm _ _, ?_⟩
  · have := (stdSort_perm nameLess (entriesOf (lines.foldl loadLine
      { t0 with counts_ := [], pretty_ := [] }))).map (fun r => (toLower r.1, r.2))
    rwa [entriesOf_keys _ hwf] at this
  · intro r hr
    exact (entriesOf_spec _ hwf r ((stdSort_perm _ _).mem_iff.mp hr)).2.1
  · refine List.Pairwise.chain' ?_
    exact (stdSort_sorted strictWeak_nameLess _).imp
      (fun {x y} h => nameAscending_of_not_less x y h)

/-- C6: no two rows of `itemsSortedByName` are equivalent under its comparator:
each row is strictly less than every later row, the lowercased display names
(hence the display names) are pairwise distinct, and any arrangement of the
same rows that is sorted for the comparator is the returned one. -/
theorem itemsSortedByName_strict (t0 : FrequencyTable) (lines : List Str) :
    ∃ t out, load t0 (some lines) = Except.ok t ∧
      itemsSortedByName t = Except.ok out ∧
      out.Pairwise (fun x y => nameLess x y = true ∧ nameLess y x = false) ∧
      (out.map (fun r => toLower r.1)).Nodup ∧
      (out.map Prod.fst).Nodup ∧
      ∀ es : List Row, es.Perm out →
        es.Pairwise (fun x y => nameLess y x = false) → es = out := by
  have hwf := wellFormed_foldl lines _ (wellFormed_cleared t0)
  have hperm := stdSort_perm nameLess (entriesOf (lines.foldl loadLine
      { t0 with counts_ := [], pretty_ := [] }))
  have hlow : ((stdSort nameLess (entriesOf (lines.foldl loadLine
      { t0 with counts_ := [], pretty_ := [] }))).map (fun r => toLower r.1)).Nodup :=
    ((hperm.map _).nodup_iff).mpr (entriesOf_lower_nodup _ hwf)
  have hsorted := stdSort_sorted strictWeak_nameLess (entriesOf (lines.foldl loadLine
      { t0 with counts_ := [], pretty_ := [] }))
  have hinj : ∀ a ∈ entriesOf (lines.foldl loadLine { t0 with counts_ := [], pretty_ := [] }),
      ∀ b ∈ entriesOf (lines.foldl loadLine { t0 with counts_ := [], pretty_ := [] }),
      nameLess a b = false → nameLess b a = false → a = b := by
    intro a ha b hb h1 h2
    have hname := nameLess_equiv_name a b h1 h2
    exact List.inj_on_of_nodup_map (entriesOf_lower_nodup _ hwf) ha hb
      (by simp only [hname])
  refine ⟨_, _, rfl, itemsSortedByName_wellFormed _ hwf, ?_, hlow, ?_, ?_⟩
  · have hdist := List.pairwise_map.mp hlow
    refine (hsorted.and hdist).imp ?_
    rintro x y ⟨hyx, hne⟩
    refine ⟨?_, hyx⟩
    cases hxy : nameLess x y with
    | true => rfl
    | false =>
      exact absurd (by rw [nameLess_equiv_name x y hxy hyx]) hne
  · have : (stdSort nameLess (entriesOf (lines.foldl loadLine
        { t0 with counts_ := [], pretty_ := [] }))).map (fun r => toLower r.1) =
        ((stdSort nameLess (entriesOf (lines.foldl loadLine
        { t0 with counts_ := [], pretty_ := [] }))).map Prod.fst).map toLower := by
      rw [List.map_map]; rfl
    rw [this] at hlow
    exact List.Nodup.of_map _ hlow
  · intro es hes hsort
    exact stdSort_unique strictWeak_nameLess _ es (hes.trans hperm) hsort hinj

/-! ## Frequency views -/

theorem freqLess_of_count_eq (x y : Row) (h : x.2 = y.2) : freqLess x y = nameLess x y := by
  simp [freqLess, nameLess, h]

theorem count_ge_of_not_freqLess (x y : Row) (h : freqLess y x = false) : y.2 ≤ x.2 := by
  by_cases e : y.2 = x.2
  · exact le_of_eq e
  · simp only [freqLess, ne_eq, e, not_false_eq_true, if_true, decide_eq_false_iff_not,
      gt_iff_lt, not_lt] at h
    exact h

/-- C7: `itemsSortedByFreqDesc` of a loaded table is a permutation of the
table's rows with non-increasing counts, and two consecutive rows with the
same count are in case-insensitive ascending name order with the exact
display name as tie-break. -/
theorem itemsSortedByFreqDesc_sorted_perm (t0 : FrequencyTable) (lines : List Str) :
    ∃ t out, load t0 (some lines) = Except.ok t ∧
      itemsSortedByFreqDesc t = Except.ok out ∧
      (out.map (fun r => (toLower r.1, r.2))).Perm t.counts_ ∧
      (∀ r ∈ out, mapFind t.pretty_ (toLower r.1) = some r.1) ∧
      out.Perm (entriesOf t) ∧
      out.Pairwise (fun x y => x.2 ≥ y.2) ∧
      out.Chain' (fun x y => x.2 ≥ y.2) ∧
      out.Chain' (fun x y => x.2 = y.2 → NameAscending x y) := by
  have hwf := wellFormed_foldl lines _ (wellFormed_cleared t0)
  have hsorted := stdSort_sorted strictWeak_freqLess (entriesOf (lines.foldl loadLine
      { t0 with counts_ := [], pretty_ := [] }))
  have hge := hsorted.imp (fun {x y} h => count_ge_of_not_freqLess x y h)
  refine ⟨_, _, rfl, itemsSortedByFreqDesc_wellFormed _ hwf, ?_, ?_,
    stdSort_perm _ _, hge, List.Pairwise.chain' hge, ?_⟩
  · have := (stdSort_perm freqLess (entriesOf (lines.foldl loadLine
      { t0 with counts_ := [], pretty_ := [] }))).map (fun r => (toLower r.1, r.2))
    rwa [entriesOf_keys _ hwf] at this
  · intro r hr
    exact (entriesOf_spec _ hwf r ((stdSort_perm _ _).mem_iff.mp hr)).2.1
  · refine List.Pairwise.chain' (hsorted.imp ?_)
    intro x y h he
    rw [freqLess_of_count_eq y x he.symm] at h
    exact nameAscending_of_not_less x y h

/-- C8: `itemsSortedByFreqAsc` of a loaded table is the reversal of
`itemsSortedByFreqDesc`. -/
theorem itemsSortedByFreqAsc_reverse (t0 : FrequencyTable) (lines : List Str) :
    ∃ t desc, load t0 (some lines) = Except.ok t ∧
      itemsSortedByFreqDesc t = Except.ok desc ∧
      itemsSortedByFreqAsc t = Except.ok desc.reverse := by
  have hwf := wellFormed_foldl lines _ (wellFormed_cleared t0)
  exact ⟨_, _, rfl, itemsSortedByFreqDesc_wellFormed _ hwf,
    itemsSortedByFreqAsc_wellFormed _ hwf⟩

theorem sublist_pair_or {α : Type} (x y : α) (hne : x ≠ y) :
    ∀ l : List α, x ∈ l → y ∈ l → List.Sublist [x, y] l ∨ List.Sublist [y, x] l
  | [], hx, _ => by simp at hx
  | a :: t, hx, hy => by
    rcases List.mem_cons.mp hx with ex | ex
    · rcases List.mem_cons.mp hy with ey | ey
      · exact absurd (ex.trans ey.symm) hne
      · left
        rw [ex]
        exact List.Sublist.cons₂ a (List.singleton_sublist.mpr ey)
    · rcases List.mem_cons.mp hy with ey | ey
      · right
        rw [ey]
        exact List.Sublist.cons₂ a (List.singleton_sublist.mpr ex)
      · rcases sublist_pair_or x y hne t ex ey with h | h
        · exact Or.inl (List.Sublist.cons a h)
        · exact Or.inr (List.Sublist.cons a h)

theorem rel_of_sublist_pair {α : Type} {R : α → α → Prop} {l : List α} {x y : α}
    (hl : l.Pairwise R) (h : List.Sublist [x, y] l) : R x y := by
  have := hl.sublist h
  simpa using this

/-- C9: for two different rows with the same count, if `x` comes before `y`
in `itemsSortedByName` then `x` comes after `y` in `itemsSortedByFreqAsc`.
Here `[x, y] <+ l` says that `x` occurs in `l` at an earlier position than
`y`. -/
theorem freqAsc_tie_descending (t0 : FrequencyTable) (lines : List Str) :
    ∃ t byName asc, load t0 (some lines) = Except.ok t ∧
      itemsSortedByName t = Except.ok byName ∧
      itemsSortedByFreqAsc t = Except.ok asc ∧
      ∀ x y : Row, x ≠ y → x.2 = y.2 →
        List.Sublist [x, y] byName → List.Sublist [y, x] asc := by
  have hwf := wellFormed_foldl lines _ (wellFormed_cleared t0)
  refine ⟨_, _, _, rfl, itemsSortedByName_wellFormed _ hwf,
    itemsSortedByFreqAsc_wellFormed _ hwf, ?_⟩
  intro x y hne hcount hsub
  have hyx : nameLess y x = false := by
    have := rel_of_sublist_pair (stdSort_sorted strictWeak_nameLess _) hsub
    exact this
  have hx : x ∈ stdSort freqLess (entriesOf (lines.foldl loadLine
      { t0 with counts_ := [], pretty_ := [] })) :=
    (stdSort_perm _ _).mem_iff.mpr ((stdSort_perm _ _).mem_iff.mp
      (hsub.subset (List.mem_cons_self _ _)))
  have hy : y ∈ stdSort freqLess (entriesOf (lines.foldl loadLine
      { t0 with counts_ := [], pretty_ := [] })) :=
    (stdSort_perm _ _).mem_iff.mpr ((stdSort_perm _ _).mem_iff.mp
      (hsub.subset (List.mem_cons_of_mem _ (List.mem_cons_self _ _))))
  rcases sublist_pair_or x y hne _ hx hy with h | h
  · have := h.reverse
    simpa using this
  · exfalso
    have hxy : freqLess x y = false := by
      have := rel_of_sublist_pair (stdSort_sorted strictWeak_freqLess _) h
      exact this
    rw [freqLess_of_count_eq x y hcount] at hxy
    exact hne (Prod.ext (nameLess_equiv_name x y hxy hyx) hcount)

/-! ## Re-loading an expanded backup -/

theorem mapIncr_append_last (m : List (Str × Nat)) (k : Str) (n : Nat)
    (h : k ∉ m.map Prod.fst) : mapIncr (m ++ [(k, n)]) k = m ++ [(k, n + 1)] := by
  induction m with
  | nil => simp [mapIncr]
  | cons p rest ih =>
    obtain ⟨k0, c⟩ := p
    simp only [List.map_cons, List.mem_cons, not_or] at h
    have h0 : ¬ k0 = k := fun e => h.1 e.symm
    simp [mapIncr, h0, ih h.2]

theorem loadLine_new (t : FrequencyTable) (d : Str) (hne : d ≠ []) (htrim : trim d = d)
    (hc : toLower d ∉ t.counts_.map Prod.fst) (hp : toLower d ∉ t.pretty_.map Prod.fst) :
    loadLine t d =
      { t with counts_ := t.counts_ ++ [(toLower d, 1)],
               pretty_ := t.pretty_ ++ [(toLower d, d)] } := by
  unfold loadLine
  simp only [htrim, hne, if_false, (mapFind_eq_none_iff _ _).mpr hp, if_true]
  rw [mapIncr_of_not_mem _ _ hc, mapAssign_of_not_mem _ _ _ hp]

theorem loadLine_again (ip : Str) (m : List (Str × Nat)) (p : List (Str × Str)) (d : Str)
    (n : Nat) (hne : d ≠ []) (htrim : trim d = d) (hm : toLower d ∉ m.map Prod.fst) :
    loadLine ⟨ip, m ++ [(toLower d, n)], p ++ [(toLower d, d)]⟩ d =
      ⟨ip, m ++ [(toLower d, n + 1)], p ++ [(toLower d, d)]⟩ := by
  have hfound : mapFind (p ++ [(toLower d, d)]) (toLower d) ≠ none := by
    intro e
    exact (mapFind_eq_none_iff _ _).mp e (by simp)
  unfold loadLine
  simp only [htrim, hne, if_false, hfound, mapIncr_append_last m _ n hm]

theorem foldl_replicate_again (ip : Str) (m : List (Str × Nat)) (p : List (Str × Str))
    (d : Str) (hne : d ≠ []) (htrim : trim d = d) (hm : toLower d ∉ m.map Prod.fst) :
    ∀ (j n : Nat),
      (List.replicate j d).foldl loadLine ⟨ip, m ++ [(toLower d, n)], p ++ [(toLower d, d)]⟩ =
        ⟨ip, m ++ [(toLower d, n + j)], p ++ [(toLower d, d)]⟩
  | 0, n => by simp
  | j + 1, n => by
    rw [List.replicate_succ, List.foldl_cons, loadLine_again ip m p d n hne htrim hm,
      foldl_replicate_again ip m p d hne htrim hm j (n + 1)]
    have : n + 1 + j = n + (j + 1) := by omega
    rw [this]

theorem foldl_block (t : FrequencyTable) (d : Str) (c : Nat) (hc1 : 1 ≤ c) (hne : d ≠ [])
    (htrim : trim d = d) (hc : toLower d ∉ t.counts_.map Prod.fst)
    (hp : toLower d ∉ t.pretty_.map Prod.fst) :
    (List.replicate c d).foldl loadLine t =
      { t with counts_ := t.counts_ ++ [(toLower d, c)],
               pretty_ := t.pretty_ ++ [(toLower d, d)] } := by
  obtain ⟨j, rfl⟩ : ∃ j, c = j + 1 := ⟨c - 1, by omega⟩
  rw [List.replicate_succ, List.foldl_cons, loadLine_new t d hne htrim hc hp,
    foldl_replicate_again t.inputPath_ t.counts_ t.pretty_ d hne htrim hc j 1]
  have : 1 + j = j + 1 := by omega
  rw [this]

theorem foldl_expandRows :
    ∀ (rows : List Row) (t : FrequencyTable),
      (∀ r ∈ rows, r.1 ≠ [] ∧ trim r.1 = r.1 ∧ 1 ≤ r.2) →
      (t.counts_.map Prod.fst ++ rows.map (fun r => toLower r.1)).Nodup →
      (t.pretty_.map Prod.fst ++ rows.map (fun r => toLower r.1)).Nodup →
      (expandRows rows).foldl loadLine t =
        { t with counts_ := t.counts_ ++ rows.map (fun r => (toLower r.1, r.2)),
                 pretty_ := t.pretty_ ++ rows.map (fun r => (toLower r.1, r.1)) }
  | [], t, _, _, _ => by simp [expandRows]
  | (d, c) :: rest, t, hrows, hnc, hnp => by
    have hr := hrows (d, c) (List.mem_cons_self _ _)
    have hc : toLower d ∉ t.counts_.map Prod.fst := by
      intro hmem
      exact (List.nodup_append.mp hnc).2.2 hmem (by simp)
    have hp : toLower d ∉ t.pretty_.map Prod.fst := by
      intro hmem
      exact (List.nodup_append.mp hnp).2.2 hmem (by simp)
    simp only [expandRows, List.foldl_append]
    rw [foldl_block t d c hr.2.2 hr.1 hr.2.1 hc hp]
    rw [foldl_expandRows rest _ (fun r h => hrows r (List.mem_cons_of_mem _ h))
      (by simpa [List.append_assoc] using hnc) (by simpa [List.append_assoc] using hnp)]
    simp [List.append_assoc]

theorem entriesOf_of_rows (ip : Str) (rows : List Row)
    (hn : (rows.map (fun r => toLower r.1)).Nodup) :
    entriesOf ⟨ip, rows.map (fun r => (toLower r.1, r.2)),
      rows.map (fun r => (toLower r.1, r.1))⟩ = rows := by
  unfold entriesOf
  simp only [List.map_map]
  conv_rhs => rw [← List.map_id rows]
  refine List.map_congr_left ?_
  intro r hr
  have hkeys : ((rows.map (fun r => (toLower r.1, r.1))).map Prod.fst).Nodup := by
    rw [List.map_map]
    exact hn
  have hfind : mapFind (rows.map (fun r => (toLower r.1, r.1))) (toLower r.1) = some r.1 :=
    (mapFind_eq_some_iff _ _ _ hkeys).mpr (List.mem_map.mpr ⟨r, hr, rfl⟩)
  simp [hfind]

/-- What the name view of a well-formed table looks like: sorted for
`nameLess`, lowercased names pairwise distinct, and every row is a non-empty
trimmed display name with a positive count. -/
theorem nameView_facts (t : FrequencyTable) (h : WellFormed t) :
    (stdSort nameLess (entriesOf t)).Pairwise (fun a b => nameLess b a = false) ∧
      ((stdSort nameLess (entriesOf t)).map (fun r => toLower r.1)).Nodup ∧
      ∀ r ∈ stdSort nameLess (entriesOf t), r.1 ≠ [] ∧ trim r.1 = r.1 ∧ 1 ≤ r.2 := by
  refine ⟨stdSort_sorted strictWeak_nameLess _,
    (((stdSort_perm nameLess (entriesOf t)).map _).nodup_iff).mpr (entriesOf_lower_nodup t h),
    ?_⟩
  intro r hr
  have := entriesOf_spec t h r ((stdSort_perm _ _).mem_iff.mp hr)
  exact ⟨this.2.2.1, this.2.2.2.1, this.2.2.2.2⟩

/-- C10: semantic round trip of the backup.  Take the rows of the name view of
a loaded table, replace each row `(displayName, count)` by `count` copies of
the line `displayName`, and load those lines (into any table object): the name
view of the result has the same multiset of rows; in fact it is the same
list. -/
theorem backup_roundtrip (t0 t1 : FrequencyTable) (lines : List Str) :
    ∃ t rows t' rows', load t0 (some lines) = Except.ok t ∧
      itemsSortedByName t = Except.ok rows ∧
      load t1 (some (expandRows rows)) = Except.ok t' ∧
      itemsSortedByName t' = Except.ok rows' ∧
      rows'.Perm rows ∧ rows' = rows := by
  have hwf := wellFormed_foldl lines _ (wellFormed_cleared t0)
  obtain ⟨hsorted, hnodup, hrows⟩ := nameView_facts _ hwf
  have hwf' := wellFormed_foldl
    (expandRows (stdSort nameLess (entriesOf (lines.foldl loadLine
      { t0 with counts_ := [], pretty_ := [] }))))
    _ (wellFormed_cleared t1)
  have hstate := foldl_expandRows _ { t1 with counts_ := [], pretty_ := [] } hrows
    (by simpa using hnodup) (by simpa using hnodup)
  simp only [List.nil_append] at hstate
  have hview := itemsSortedByName_wellFormed _ hwf'
  rw [hstate, entriesOf_of_rows _ _ hnodup] at hview
  have hfix : stdSort nameLess (entriesOf (lines.foldl loadLine
      { t0 with counts_ := [], pretty_ := [] })) =
      stdSort nameLess (stdSort nameLess (entriesOf (lines.foldl loadLine
      { t0 with counts_ := [], pretty_ := [] }))) := by
    refine stdSort_unique strictWeak_nameLess _ _ (List.Perm.refl _) hsorted ?_
    intro a ha b hb h1 h2
    exact List.inj_on_of_nodup_map hnodup ha hb
      (by simp only [nameLess_equiv_name a b h1 h2])
  rw [← hfix] at hview
  refine ⟨_, _, _, _, rfl, itemsSortedByName_wellFormed _ hwf, rfl, ?_, List.Perm.refl _, rfl⟩
  rw [← hstate] at hview
  exact hview

/-! ## Soundness of the modelling choices -/

/-- No counter of a loaded table, nor their sum, exceeds the number of input
lines: `int` arithmetic cannot overflow on inputs of fewer than `2^31`
lines. -/
theorem load_counts_le_length (t0 : FrequencyTable) (lines : List Str) :
    ∃ t, load t0 (some lines) = Except.ok t ∧
      (∀ kc ∈ t.counts_, kc.2 ≤ lines.length) ∧
      totalPurchases t ≤ lines.length ∧ uniqueItemCount t ≤ lines.length := by
  have hwf := wellFormed_foldl lines _ (wellFormed_cleared t0)
  have hsum : totalPurchases (lines.foldl loadLine { t0 with counts_ := [], pretty_ := [] })
      ≤ lines.length := by
    rw [totalPurchases_eq_sum, foldl_loadLine_sum]
    simpa using List.countP_le_length _
  have hmem : ∀ kc ∈ (lines.foldl loadLine { t0 with counts_ := [], pretty_ := [] }).counts_,
      kc.2 ≤ totalPurchases
        (lines.foldl loadLine { t0 with counts_ := [], pretty_ := [] }) := by
    intro kc hkc
    rw [totalPurchases_eq_sum]
    exact List.single_le_sum (by simp) _ (List.mem_map_of_mem Prod.snd hkc)
  refine ⟨_, rfl, fun kc hkc => le_trans (hmem kc hkc) hsum, hsum, ?_⟩
  unfold uniqueItemCount
  have hlen : (lines.foldl loadLine { t0 with counts_ := [], pretty_ := [] }).counts_.length
      = ((lines.foldl loadLine { t0 with counts_ := [], pretty_ := [] }).counts_.map
          Prod.snd).length := by simp
  rw [hlen]
  refine le_trans ?_ hsum
  rw [totalPurchases_eq_sum]
  have hone : ∀ x ∈ (lines.foldl loadLine
      { t0 with counts_ := [], pretty_ := [] }).counts_.map Prod.snd, 1 ≤ x := by
    intro x hx
    obtain ⟨kc, hkc, rfl⟩ := List.mem_map.mp hx
    exact hwf.pos kc hkc
  have := List.card_nsmul_le_sum _ 1 hone
  simpa using this

theorem mapFind_perm {V : Type} (m m' : List (Str × V)) (hp : m'.Perm m)
    (hn : (m.map Prod.fst).Nodup) (k : Str) : mapFind m' k = mapFind m k := by
  have hn' : (m'.map Prod.fst).Nodup := ((hp.map Prod.fst).nodup_iff).mpr hn
  cases h : mapFind m k with
  | none =>
    rw [mapFind_eq_none_iff] at h ⊢
    exact fun hk => h ((hp.map Prod.fst).mem_iff.mp hk)
  | some v =>
    rw [mapFind_eq_some_iff _ _ _ hn] at h
    rw [mapFind_eq_some_iff _ _ _ hn']
    exact hp.mem_iff.mpr h

/-- The sorted views do not depend on the order in which the two hash maps
store (and iterate over) their entries. -/
theorem views_iteration_order (t : FrequencyTable) (h : WellFormed t)
    (cs : List (Str × Nat)) (ps : List (Str × Str))
    (hc : cs.Perm t.counts_) (hp : ps.Perm t.pretty_) :
    itemsSortedByName ⟨t.inputPath_, cs, ps⟩ = itemsSortedByName t ∧
      itemsSortedByFreqDesc ⟨t.inputPath_, cs, ps⟩ = itemsSortedByFreqDesc t ∧
      itemsSortedByFreqAsc ⟨t.inputPath_, cs, ps⟩ = itemsSortedByFreqAsc t := by
  have hcollect : collectRows ⟨t.inputPath_, cs, ps⟩ cs =
      Except.ok (cs.map (fun kc => ((mapFind t.pretty_ kc.1).getD [], kc.2))) := by
    rw [collectRows_eq]
    · congr 1
      refine List.map_congr_left ?_
      intro kc _
      simp only [mapFind_perm _ _ hp (h.keys_eq ▸ h.nodup)]
    · intro kc hkc
      have h1 : kc.1 ∈ t.counts_.map Prod.fst :=
        (hc.map Prod.fst).mem_iff.mp (List.mem_map_of_mem Prod.fst hkc)
      rw [← h.keys_eq] at h1
      exact (hp.map Prod.fst).mem_iff.mpr h1
  have hperm : (cs.map (fun kc => ((mapFind t.pretty_ kc.1).getD [], kc.2))).Perm
      (entriesOf t) := hc.map _
  have hname : stdSort nameLess (cs.map (fun kc => ((mapFind t.pretty_ kc.1).getD [], kc.2)))
      = stdSort nameLess (entriesOf t) := by
    refine stdSort_unique strictWeak_nameLess _ _ ((stdSort_perm _ _).trans hperm)
      (stdSort_sorted strictWeak_nameLess _) ?_
    intro a ha b hb h1 h2
    exact List.inj_on_of_nodup_map (entriesOf_lower_nodup t h) ha hb
      (by simp only [nameLess_equiv_name a b h1 h2])
  have hfreq : stdSort freqLess (cs.map (fun kc => ((mapFind t.pretty_ kc.1).getD [], kc.2)))
      = stdSort freqLess (entriesOf t) := by
    refine stdSort_unique strictWeak_freqLess _ _ ((stdSort_perm _ _).trans hperm)
      (stdSort_sorted strictWeak_freqLess _) ?_
    intro a _ b _ h1 h2
    exact freqLess_equiv_eq a b h1 h2
  refine ⟨?_, ?_, ?_⟩
  · rw [itemsSortedByName_wellFormed t h]
    simp only [itemsSortedByName, hcollect, hname]
  · rw [itemsSortedByFreqDesc_wellFormed t h]
    simp only [itemsSortedByFreqDesc, hcollect, hfreq]
  · rw [itemsSortedByFreqAsc_wellFormed t h]
    simp only [itemsSortedByFreqAsc, itemsSortedByFreqDesc, hcollect, hfreq]

/-- A concrete tie: the lines `pear`, `Apple`, `fig`, `fig` give the name view
`Apple, fig, pear` and the ascending frequency view `pear, Apple, fig`, where
the tied rows `Apple` and `pear` are in the opposite order. -/
theorem freqAsc_tie_example :
    ∃ t, load ⟨[], [], []⟩
        (some [bytes "pear", bytes "Apple", bytes "fig", bytes "fig"]) = Except.ok t ∧
      itemsSortedByName t =
        Except.ok [(bytes "Apple", 1), (bytes "fig", 2), (bytes "pear", 1)] ∧
      itemsSortedByFreqDesc t =
        Except.ok [(bytes "fig", 2), (bytes "Apple", 1), (bytes "pear", 1)] ∧
      itemsSortedByFreqAsc t =
        Except.ok [(bytes "pear", 1), (bytes "Apple", 1), (bytes "fig", 2)] :=
  ⟨_, rfl, rfl, rfl, rfl⟩

/-! ## The recursive Levenshtein distance -/

theorem lev_nil_left (b : Str) : lev [] b = b.length := rfl

theorem lev_nil_right (a : Str) : lev a [] = a.length := by
  induction a with
  | nil => rfl
  | cons x xs ih =>
    show lev xs [] + 1 = (x :: xs).length
    rw [ih, List.length_cons]

theorem lev_cons_cons (x : Byte) (xs : Str) (y : Byte) (ys : Str) :
    lev (x :: xs) (y :: ys) =
      min (lev xs (y :: ys) + 1) (min (lev (x :: xs) ys + 1) (lev xs ys + substCost x y)) :=
  rfl

theorem lev_nil_snoc (x y : Byte) (b : Str) :
    lev [x] (b ++ [y]) =
      min (lev [] (b ++ [y]) + 1) (min (lev [x] b + 1) (lev [] b + substCost x y)) := by
  induction b with
  | nil => rfl
  | cons v b' ih =>
    rw [List.cons_append, lev_cons_cons, ih, lev_cons_cons]
    simp only [lev_nil_left, List.length_append, List.length_cons, List.length_nil]
    omega

theorem lev_snoc_nil (x y : Byte) (a : Str) :
    lev (a ++ [x]) [y] =
      min (lev a [y] + 1) (min (lev (a ++ [x]) [] + 1) (lev a [] + substCost x y)) := by
  induction a with
  | nil => rfl
  | cons u a' ih =>
    rw [List.cons_append, lev_cons_cons, ih, lev_cons_cons]
    simp only [lev_nil_right, List.length_append, List.length_cons, List.length_nil]
    omega

/-- The recursive distance also unfolds at the last characters of its
arguments. -/
theorem lev_snoc_snoc (x y : Byte) :
    ∀ (a b : Str), lev (a ++ [x]) (b ++ [y]) =
      min (lev a (b ++ [y]) + 1) (min (lev (a ++ [x]) b + 1) (lev a b + substCost x y)) := by
  intro a
  induction a with
  | nil => intro b; exact lev_nil_snoc x y b
  | cons u a' iha =>
    intro b
    induction b with
    | nil => exact lev_snoc_nil x y (u :: a')
    | cons v b' ihb =>
      have hA := iha (v :: b')
      have hC := iha b'
      simp only [List.cons_append] at hA hC ihb ⊢
      rw [lev_cons_cons u (a' ++ [x]) v (b' ++ [y]), hA, ihb, hC,
        lev_cons_cons u a' v (b' ++ [y]), lev_cons_cons u (a' ++ [x]) v b',
        lev_cons_cons u a' v b']
      simp only [← Nat.add_min_add_right]
      ac_rfl

/-! ## The two-row implementation computes the recursive distance -/

theorem levRowFrom_head (a b₁ b₂ : Str) :
    ∃ ps, levRowFrom a b₁ b₂ = lev a b₁ :: ps := by
  cases b₂ with
  | nil => exact ⟨[], rfl⟩
  | cons y ys => exact ⟨_, rfl⟩

theorem levFill_row (a : Str) (x : Byte) :
    ∀ (b₂ b₁ : Str),
      lev (a ++ [x]) b₁ :: levFill x b₂ (levRowFrom a b₁ b₂) (lev (a ++ [x]) b₁) =
        levRowFrom (a ++ [x]) b₁ b₂
  | [], b₁ => by simp [levFill, levRowFrom]
  | y :: ys, b₁ => by
    obtain ⟨ps, hps⟩ := levRowFrom_head a (b₁ ++ [y]) ys
    have ih := levFill_row a x ys (b₁ ++ [y])
    rw [hps] at ih
    have hc : min (lev a (b₁ ++ [y]) + 1)
        (min (lev (a ++ [x]) b₁ + 1) (lev a b₁ + if x = y then 0 else 1)) =
        lev (a ++ [x]) (b₁ ++ [y]) := by
      rw [lev_snoc_snoc]
      rfl
    simp only [levRowFrom, hps, levFill, hc, ih]

theorem levRowFrom_nil (b₂ : Str) :
    ∀ b₁ : Str, levRowFrom [] b₁ b₂ = List.range' b₁.length (b₂.length + 1) := by
  induction b₂ with
  | nil => intro b₁; simp [levRowFrom, lev_nil_left]
  | cons y ys ih =>
    intro b₁
    simp only [levRowFrom, lev_nil_left, ih, List.length_append, List.length_cons,
      List.length_nil]
    rw [List.range'_succ b₁.length (ys.length + 1)]

theorem levRows_row (b : Str) :
    ∀ (xs a₁ : Str),
      levRows b xs (a₁.length + 1) (levRowFrom a₁ [] b) = levRowFrom (a₁ ++ xs) [] b
  | [], a₁ => by simp [levRows]
  | x :: xs, a₁ => by
    have hrow := levFill_row a₁ x b []
    have hi : lev (a₁ ++ [x]) [] = a₁.length + 1 := by
      rw [lev_nil_right, List.length_append]
      rfl
    rw [hi] at hrow
    have ih := levRows_row b xs (a₁ ++ [x])
    rw [List.length_append] at ih
    simp only [List.length_cons, List.length_nil, List.append_assoc, List.singleton_append]
      at ih
    simp only [levRows, hrow]
    exact ih

theorem levRowFrom_last (a : Str) :
    ∀ (b₂ b₁ : Str), (levRowFrom a b₁ b₂).getD b₂.length 0 = lev a (b₁ ++ b₂)
  | [], b₁ => by simp [levRowFrom]
  | y :: ys, b₁ => by
    have ih := levRowFrom_last a ys (b₁ ++ [y])
    simp only [List.append_assoc, List.singleton_append] at ih
    simp only [levRowFrom, List.length_cons, List.getD_cons_succ]
    exact ih

/-- The two-row loop returns the recursively defined distance. -/
theorem editDistanceLevenshtein_eq_lev (a b : Str) : editDistanceLevenshtein a b = lev a b := by
  unfold editDistanceLevenshtein
  have h0 : List.range (b.length + 1) = levRowFrom [] [] b := by
    rw [levRowFrom_nil, List.range_eq_range']
    rfl
  have h1 := levRows_row b a []
  simp only [List.length_nil, List.nil_append, Nat.zero_add] at h1
  rw [h0, h1]
  simpa using levRowFrom_last a b []

theorem lev_eq_levenshtein (a b : Str) :
    lev a b = levenshtein Levenshtein.defaultCost a b := by
  induction a generalizing b with
  | nil =>
    induction b with
    | nil => simp [lev_nil_left]
    | cons y ys ih =>
      rw [levenshtein_nil_cons, ← ih]
      simp [lev_nil_left, Nat.add_comm]
  | cons x xs iha =>
    induction b with
    | nil =>
      rw [levenshtein_cons_nil, ← iha]
      simp [lev_nil_right, Nat.add_comm]
    | cons y ys ihb =>
      rw [lev_cons_cons, levenshtein_cons_cons, ← iha, ← iha, ← ihb]
      simp [substCost, Nat.add_comm]

theorem levTable_eq_lev (a b : Str) :
    ∀ (i j : Nat), i ≤ a.length → j ≤ b.length →
      levTable a b i j = lev (a.take i) (b.take j)
  | 0, j, _, hj => by
    simp [levTable, lev_nil_left, Nat.min_eq_left hj]
  | i + 1, 0, hi, _ => by
    simp [levTable, lev_nil_right, Nat.min_eq_left hi]
  | i + 1, j + 1, hi, hj => by
    have hi' : i < a.length := hi
    have hj' : j < b.length := hj
    have h1 := levTable_eq_lev a b i (j + 1) (Nat.le_of_lt hi') hj
    have h2 := levTable_eq_lev a b (i + 1) j hi (Nat.le_of_lt hj')
    have h3 := levTable_eq_lev a b i j (Nat.le_of_lt hi') (Nat.le_of_lt hj')
    have ha : a.take (i + 1) = a.take i ++ [a.getD i 0] := by
      rw [List.take_succ, List.getD_eq_getElem?_getD, List.getElem?_eq_getElem hi']
      rfl
    have hb : b.take (j + 1) = b.take j ++ [b.getD j 0] := by
      rw [List.take_succ, List.getD_eq_getElem?_getD, List.getElem?_eq_getElem hj']
      rfl
    rw [levTable, h1, h2, h3]
    conv_rhs => rw [ha, hb, lev_snoc_snoc]
    rw [← ha, ← hb]

theorem lev_eq_zero : ∀ (a b : Str), lev a b = 0 → a = b
  | [], b, h => by
    rw [lev_nil_left] at h
    exact (List.length_eq_zero.mp h).symm
  | x :: xs, [], h => by
    rw [lev_nil_right] at h
    simp at h
  | x :: xs, y :: ys, h => by
    rw [lev_cons_cons] at h
    have h3 : lev xs ys + substCost x y = 0 := by omega
    have hxy : x = y := by
      by_contra hne
      simp [substCost, hne] at h3
    have := lev_eq_zero xs ys (by omega)
    rw [hxy, this]

theorem lev_self (a : Str) : lev a a = 0 := by
  induction a with
  | nil => rfl
  | cons x xs ih =>
    rw [lev_cons_cons, ih]
    simp [substCost]

/-- C17: `editDistanceLevenshtein a b` is the Levenshtein distance of `a` and
`b` as the standard recursion defines it (`lev`, whose three defining equations
are restated here, and which agrees with Mathlib's `levenshtein` for unit
costs); it is also the bottom-right cell of the full dynamic-programming
table, and for an empty argument it is the length of the other one. -/
theorem editDistanceLevenshtein_correct (a b : Str) :
    editDistanceLevenshtein a b = lev a b ∧
      editDistanceLevenshtein a b = levenshtein Levenshtein.defaultCost a b ∧
      editDistanceLevenshtein a b = levTable a b a.length b.length ∧
      editDistanceLevenshtein [] b = b.length ∧
      editDistanceLevenshtein a [] = a.length ∧
      (∀ b' : Str, lev [] b' = b'.length) ∧
      (∀ a' : Str, lev a' [] = a'.length) ∧
      (∀ (x : Byte) (xs : Str) (y : Byte) (ys : Str),
        lev (x :: xs) (y :: ys) =
          min (lev xs (y :: ys) + 1)
            (min (lev (x :: xs) ys + 1) (lev xs ys + if x = y then 0 else 1))) := by
  refine ⟨editDistanceLevenshtein_eq_lev a b, ?_, ?_, ?_, ?_, lev_nil_left, lev_nil_right,
    fun x xs y ys => lev_cons_cons x xs y ys⟩
  · rw [editDistanceLevenshtein_eq_lev, lev_eq_levenshtein]
  · rw [editDistanceLevenshtein_eq_lev, levTable_eq_lev a b a.length b.length (le_refl _)
      (le_refl _), List.take_length, List.take_length]
  · rw [editDistanceLevenshtein_eq_lev, lev_nil_left]
  · rw [editDistanceLevenshtein_eq_lev, lev_nil_right]

/-! ## The ranking order of the suggestion engine -/

theorem strictTotal_natLt : StrictTotal natLt := by
  refine ⟨?_, ?_, ?_⟩
  · intro a; simp [natLt]
  · intro a b c h1 h2
    simp only [natLt, decide_eq_true_eq] at h1 h2 ⊢
    omega
  · intro a b h1 h2
    simp only [natLt, decide_eq_false_iff_not] at h1 h2
    omega

theorem strictTotal_boolGt : StrictTotal boolGt := by
  refine ⟨?_, ?_, ?_⟩
  · intro a; cases a <;> rfl
  · intro a b c h1 h2
    cases a <;> cases b <;> cases c <;> simp_all [boolGt]
  · intro a b h1 h2
    cases a <;> cases b <;> simp_all [boolGt]

theorem rankedLess_eq_lex : rankedLess = lexLt natLt (lexLt boolGt strLt) := by
  funext A B
  obtain ⟨s1, p1, n1⟩ := A
  obtain ⟨s2, p2, n2⟩ := B
  by_cases hs : s1 = s2
  · by_cases hp : p1 = p2 <;> simp [rankedLess, lexLt, natLt, boolGt, hs, hp]
  · simp [rankedLess, lexLt, natLt, hs]

theorem strictTotal_rankedLess : StrictTotal rankedLess := by
  rw [rankedLess_eq_lex]
  exact strictTotal_lexLt strictTotal_natLt (strictTotal_lexLt strictTotal_boolGt
    strictTotal_strLt)

theorem strictWeak_rankedLess : StrictWeak rankedLess := by
  have := strictWeak_of_key strictTotal_rankedLess (fun t : Ranked => t)
  exact this

/-! ## The collection loop of `suggestionsFor` -/

theorem collectSuggestions_eq_take (m : Nat) (hm : 1 ≤ m) :
    ∀ (l : List Ranked) (out : List Str), out.length < m →
      collectSuggestions m l out =
        out ++ (((l.filter keepRanked).map (fun t => t.2.2)).take (m - out.length))
  | [], out, _ => by simp [collectSuggestions]
  | (score, isPre, name) :: rest, out, hout => by
    by_cases hskip : (!isPre && decide (score > 2)) = true
    · have hk : keepRanked (score, isPre, name) = false := by
        simp only [keepRanked, hskip, Bool.not_true]
      simp only [collectSuggestions, hskip, if_true, List.filter_cons, hk]
      exact collectSuggestions_eq_take m hm rest out hout
    · have hk : keepRanked (score, isPre, name) = true := by
        simp only [keepRanked]
        cases h : (!isPre && decide (score > 2)) with
        | true => exact absurd h hskip
        | false => rfl
      obtain ⟨j, hj⟩ : ∃ j, m - out.length = j + 1 := ⟨m - out.length - 1, by omega⟩
      simp only [collectSuggestions, hskip, List.filter_cons, hk, if_true, List.map_cons,
        hj, List.take_succ_cons]
      by_cases hfull : (out ++ [name]).length ≥ m
      · have hj0 : j = 0 := by
          simp only [List.length_append, List.length_cons, List.length_nil] at hfull
          omega
        rw [if_pos hfull, hj0]
        simp
      · have hlen : (out ++ [name]).length < m := by omega
        rw [if_neg hfull, collectSuggestions_eq_take m hm rest (out ++ [name]) hlen]
        have hj' : m - (out ++ [name]).length = j := by
          simp only [List.length_append, List.length_cons, List.length_nil]
          omega
        rw [hj']
        simp

theorem collectSuggestions_zero :
    ∀ (l : List Ranked), collectSuggestions 0 l [] = collectSuggestions 1 l []
  | [] => rfl
  | (score, isPre, name) :: rest => by
    by_cases hskip : (!isPre && decide (score > 2)) = true
    · simp only [collectSuggestions, hskip, if_true]
      exact collectSuggestions_zero rest
    · simp [collectSuggestions, hskip]

/-- What `suggestionsFor` returns, for every `maxResults`: the first
`max maxResults 1` names of the sorted tuples that pass the filter. -/
theorem suggestionsFor_eq_take (q : Str) (entries : List Row) (m : Nat) :
    suggestionsFor q entries m =
      (((stdSort rankedLess (entries.map (rankRow q))).filter keepRanked).map
        (fun t => t.2.2)).take (max m 1) := by
  unfold suggestionsFor
  by_cases hm : 1 ≤ m
  · rw [collectSuggestions_eq_take m hm _ [] (by simpa using hm)]
    simp [Nat.max_eq_left hm]
  · have h0 : m = 0 := by omega
    subst h0
    rw [collectSuggestions_zero, collectSuggestions_eq_take 1 (le_refl 1) _ [] (by simp)]
    simp

theorem suggestionsFor_length_le (q : Str) (entries : List Row) (m : Nat) (hm : 1 ≤ m) :
    (suggestionsFor q entries m).length ≤ m := by
  rw [suggestionsFor_eq_take, Nat.max_eq_left hm]
  exact List.length_take_le _ _

/-- C11: with `maxResults = 0` the collection loop still returns one name: it
tests the size only after `push_back`.  For the query `a` and the single entry
`a` the result has length 1; for `maxResults ≥ 1` the bound holds
(`suggestionsFor_length_le`). -/
theorem suggestionsFor_zero_returns_one :
    suggestionsFor (bytes "a") [(bytes "a", 1)] 0 = [bytes "a"] ∧
      ¬ (suggestionsFor (bytes "a") [(bytes "a", 1)] 0).length ≤ 0 := by
  decide

/-! ## The suggestion engine against its specification -/

theorem rankRow_eq_toRanked (q : Str) (hq : toLowerCopy q = q) (r : Row) :
    rankRow q r = (specCandidate q r.1).toRanked := by
  simp only [rankRow, specCandidate, Candidate.toRanked, startsWith, hq,
    editDistanceLevenshtein_eq_lev]

theorem specBefore_eq_rankedLess (A B : Candidate) :
    specBefore A B = rankedLess A.toRanked B.toRanked := by
  simp only [specBefore, rankedLess, Candidate.toRanked]
  by_cases hs : A.score = B.score
  · by_cases hp : A.isPrefixMatch = B.isPrefixMatch
    · simp [hs, hp]
    · cases hA : A.isPrefixMatch <;> cases hB : B.isPrefixMatch <;> simp_all
  · simp [hs]

theorem specKeep_eq_keepRanked (q n : Str) :
    keepRanked (specCandidate q n).toRanked = specKeep (specCandidate q n) := by
  simp only [keepRanked, specKeep, specCandidate, Candidate.toRanked]
  by_cases h : (toLowerCopy q).isPrefixOf (toLowerCopy n) = true
  · simp [h]
  · by_cases h2 : lev (toLowerCopy q) (toLowerCopy n) ≤ 2
    · have h3 : ¬ 2 < lev (toLowerCopy q) (toLowerCopy n) := by omega
      simp [h, h2, h3]
    · have h3 : 2 < lev (toLowerCopy q) (toLowerCopy n) := by omega
      simp [h, h2, h3]

/-- C12: for a lowercased query and `maxResults ≥ 1`, `suggestionsFor` returns
the first `maxResults` names of the specified pipeline: score every display
name (0 for a prefix match, else the Levenshtein distance), arrange the
candidates by score, then prefix matches first, then name (`sorted` is any
such arrangement), and drop the non-prefix candidates whose distance exceeds
2. -/
theorem suggestionsFor_refines_spec (q : Str) (entries : List Row) (m : Nat)
    (sorted : List Candidate) (hq : toLowerCopy q = q) (hm : 1 ≤ m)
    (hperm : sorted.Perm (entries.map (fun r => specCandidate q r.1)))
    (hsorted : sorted.Pairwise (fun A B => specBefore B A = false)) :
    suggestionsFor q entries m =
      ((sorted.filter specKeep).map Candidate.name).take m := by
  have hmapeq : entries.map (rankRow q) =
      (entries.map (fun r => specCandidate q r.1)).map Candidate.toRanked := by
    rw [List.map_map]
    exact List.map_congr_left (fun r _ => rankRow_eq_toRanked q hq r)
  have hpermR : (sorted.map Candidate.toRanked).Perm (entries.map (rankRow q)) := by
    rw [hmapeq]
    exact hperm.map _
  have hsortedR : (sorted.map Candidate.toRanked).Pairwise
      (fun A B => rankedLess B A = false) := by
    rw [List.pairwise_map]
    exact hsorted.imp (fun {A B} h => by rw [← specBefore_eq_rankedLess]; exact h)
  have huniq := stdSort_unique strictWeak_rankedLess (entries.map (rankRow q))
    (sorted.map Candidate.toRanked) hpermR hsortedR
    (fun a _ b _ h1 h2 => strictTotal_rankedLess.total a b h1 h2)
  rw [suggestionsFor_eq_take, Nat.max_eq_left hm, ← huniq, List.filter_map, List.map_map]
  have hfilter : sorted.filter (keepRanked ∘ Candidate.toRanked) = sorted.filter specKeep := by
    refine List.filter_congr ?_
    intro c hc
    obtain ⟨r, _, hr⟩ := List.mem_map.mp (hperm.mem_iff.mp hc)
    rw [← hr]
    exact specKeep_eq_keepRanked q r.1
  rw [hfilter]
  rfl

/-- The refinement at the query `ab` over the names `xyz`, `Abc`, `b`, `Abd`
with `maxResults = 2`: the two prefix matches are returned, `Abc` first. -/
theorem suggestionsFor_refines_spec_witness :
    (toLowerCopy (bytes "ab") = bytes "ab" ∧ 1 ≤ 2 ∧
      [specCandidate (bytes "ab") (bytes "Abc"), specCandidate (bytes "ab") (bytes "Abd"),
        specCandidate (bytes "ab") (bytes "b"), specCandidate (bytes "ab") (bytes "xyz")].Perm
        ([(bytes "xyz", 1), (bytes "Abc", 2), (bytes "b", 1), (bytes "Abd", 1)].map
          (fun r => specCandidate (bytes "ab") r.1)) ∧
      [specCandidate (bytes "ab") (bytes "Abc"), specCandidate (bytes "ab") (bytes "Abd"),
        specCandidate (bytes "ab") (bytes "b"), specCandidate (bytes "ab") (bytes "xyz")].Pairwise
        (fun A B => specBefore B A = false)) ∧
    suggestionsFor (bytes "ab")
        [(bytes "xyz", 1), (bytes "Abc", 2), (bytes "b", 1), (bytes "Abd", 1)] 2 =
      (([specCandidate (bytes "ab") (bytes "Abc"), specCandidate (bytes "ab") (bytes "Abd"),
        specCandidate (bytes "ab") (bytes "b"),
        specCandidate (bytes "ab") (bytes "xyz")].filter specKeep).map
          Candidate.name).take 2 ∧
    suggestionsFor (bytes "ab")
        [(bytes "xyz", 1), (bytes "Abc", 2), (bytes "b", 1), (bytes "Abd", 1)] 2 =
      [bytes "Abc", bytes "Abd"] :=
  ⟨by decide,
    suggestionsFor_refines_spec (bytes "ab")
      [(bytes "xyz", 1), (bytes "Abc", 2), (bytes "b", 1), (bytes "Abd", 1)] 2
      [specCandidate (bytes "ab") (bytes "Abc"), specCandidate (bytes "ab") (bytes "Abd"),
        specCandidate (bytes "ab") (bytes "b"), specCandidate (bytes "ab") (bytes "xyz")]
      (by decide) (by decide) (by decide) (by decide),
    by decide⟩

/-! ## Ranking facts used by the examples of the specification -/

theorem stdSort_head_of_least {α : Type} {comp : α → α → Bool} (h : StrictWeak comp)
    (l : List α) (x : α) (hx : x ∈ l) (hleast : ∀ y ∈ l, y ≠ x → comp x y = true) :
    ∃ t, stdSort comp l = x :: t := by
  have hsorted := stdSort_sorted h l
  have hperm := stdSort_perm comp l
  cases hs : stdSort comp l with
  | nil =>
    rw [hs] at hperm
    exact absurd (hperm.mem_iff.mpr hx) (List.not_mem_nil _)
  | cons a t =>
    rw [hs] at hsorted hperm
    by_cases hax : a = x
    · exact ⟨t, by rw [hax]⟩
    · exfalso
      have hxt : x ∈ t := by
        rcases List.mem_cons.mp (hperm.mem_iff.mpr hx) with e | e
        · exact absurd e.symm hax
        · exact e
      have h1 : comp x a = false := (List.pairwise_cons.mp hsorted).1 x hxt
      have h2 := hleast a (hperm.mem_iff.mp (List.mem_cons_self _ _)) hax
      rw [h1] at h2
      exact absurd h2 (by simp)

theorem rankRow_name (q : Str) (r : Row) : rankRow q r = rankRow q (r.1, 0) := rfl

theorem startsWith_self (s : Str) : startsWith s s = true := by
  unfold startsWith
  induction s with
  | nil => rfl
  | cons x xs ih => simp [List.isPrefixOf, ih]

/-- A name that is not a prefix match has a positive edit distance. -/
theorem editDistance_pos_of_not_startsWith (q n : Str) (h : startsWith n q = false) :
    1 ≤ editDistanceLevenshtein q n := by
  by_contra hc
  have h0 : lev q n = 0 := by
    rw [← editDistanceLevenshtein_eq_lev]
    omega
  have hqn := lev_eq_zero q n h0
  rw [hqn, startsWith_self] at h
  exact absurd h (by simp)

theorem mem_suggestionsFor (q : Str) (entries : List Row) (m : Nat) (n : Str)
    (hn : n ∈ suggestionsFor q entries m) :
    ∃ r ∈ entries, r.1 = n ∧ keepRanked (rankRow q r) = true := by
  rw [suggestionsFor_eq_take] at hn
  have hn' := List.mem_of_mem_take hn
  obtain ⟨t, ht, htn⟩ := List.mem_map.mp hn'
  obtain ⟨htmem, htkeep⟩ := List.mem_filter.mp ht
  obtain ⟨r, hr, hrt⟩ := List.mem_map.mp ((stdSort_perm _ _).mem_iff.mp htmem)
  refine ⟨r, hr, ?_, by rw [hrt]; exact htkeep⟩
  rw [← htn, ← hrt]
  rfl

theorem suggestionsFor_ne_nil (q : Str) (entries : List Row) (m : Nat) (r : Row)
    (hr : r ∈ entries) (hkeep : keepRanked (rankRow q r) = true) :
    suggestionsFor q entries m ≠ [] := by
  rw [suggestionsFor_eq_take]
  have hmem : rankRow q r ∈ (stdSort rankedLess (entries.map (rankRow q))).filter keepRanked :=
    List.mem_filter.mpr ⟨(stdSort_perm _ _).mem_iff.mpr (List.mem_map_of_mem _ hr), hkeep⟩
  intro hnil
  have hlen := congrArg List.length hnil
  simp only [List.length_take, List.length_map, List.length_nil] at hlen
  have hpos : 0 < ((stdSort rankedLess (entries.map (rankRow q))).filter keepRanked).length :=
    List.length_pos_of_mem hmem
  omega

/-- C13 as stated fails.  With the entries `Cranberries` and
`Craneberries Jam` the query `craneberries` is a prefix of the second
lowercased name, which therefore has score 0 and is returned first;
`Cranberries` (score 1) comes second. -/
theorem suggestionsFor_craneberries_counterexample :
    bytes "Cranberries" ∈
        [(bytes "Cranberries", 3), (bytes "Craneberries Jam", 1)].map Prod.fst ∧
      suggestionsFor (bytes "craneberries")
          [(bytes "Cranberries", 3), (bytes "Craneberries Jam", 1)] 3 =
        [bytes "Craneberries Jam", bytes "Cranberries"] ∧
      (suggestionsFor (bytes "craneberries")
          [(bytes "Cranberries", 3), (bytes "Craneberries Jam", 1)] 3).head? ≠
        some (bytes "Cranberries") := by
  decide

/-- C13, amended: for every entry list that contains `Cranberries`, the
suggestions for `craneberries` with `maxResults = 3` are never empty, and
`Cranberries` (edit distance 1) is the first of them provided no other entry
is a prefix match of the query and no other entry within edit distance 1 has a
display name that is not byte-wise greater than `Cranberries`. -/
theorem suggestionsFor_craneberries (entries : List Row)
    (hmem : bytes "Cranberries" ∈ entries.map Prod.fst) :
    editDistanceLevenshtein (bytes "craneberries") (toLowerCopy (bytes "Cranberries")) = 1 ∧
      suggestionsFor (bytes "craneberries") entries 3 ≠ [] ∧
      ((∀ r ∈ entries, r.1 ≠ bytes "Cranberries" →
          startsWith (toLowerCopy r.1) (bytes "craneberries") = false ∧
          (editDistanceLevenshtein (bytes "craneberries") (toLowerCopy r.1) ≤ 1 →
            strLt (bytes "Cranberries") r.1 = true)) →
        (suggestionsFor (bytes "craneberries") entries 3).head? =
          some (bytes "Cranberries")) := by
  obtain ⟨r0, hr0, hr0n⟩ := List.mem_map.mp hmem
  have hrankC : rankRow (bytes "craneberries") (bytes "Cranberries", 0) =
      (1, false, bytes "Cranberries") := by decide
  have hrank0 : rankRow (bytes "craneberries") r0 = (1, false, bytes "Cranberries") := by
    rw [rankRow_name, hr0n, hrankC]
  refine ⟨by decide, ?_, ?_⟩
  · refine suggestionsFor_ne_nil _ entries 3 r0 hr0 ?_
    rw [hrank0]
    decide
  · intro hbest
    have hx : ((1, false, bytes "Cranberries") : Ranked) ∈
        entries.map (rankRow (bytes "craneberries")) := by
      rw [← hrank0]
      exact List.mem_map_of_mem _ hr0
    have hleast : ∀ y ∈ entries.map (rankRow (bytes "craneberries")),
        y ≠ ((1, false, bytes "Cranberries") : Ranked) →
        rankedLess (1, false, bytes "Cranberries") y = true := by
      intro y hy hne
      obtain ⟨r, hr, hry⟩ := List.mem_map.mp hy
      have hrn : r.1 ≠ bytes "Cranberries" := by
        intro e
        apply hne
        rw [← hry, rankRow_name, e, hrankC]
      obtain ⟨hpre, hname⟩ := hbest r hr hrn
      have hpos := editDistance_pos_of_not_startsWith _ _ hpre
      have hy' : y = (editDistanceLevenshtein (bytes "craneberries") (toLowerCopy r.1),
          false, r.1) := by
        rw [← hry]
        simp only [rankRow, hpre]
        rfl
      rw [hy']
      by_cases hd : editDistanceLevenshtein (bytes "craneberries") (toLowerCopy r.1) = 1
      · simp only [rankedLess, hd, ne_eq, not_true_eq_false, if_false]
        exact hname (le_of_eq hd)
      · have hd' : 1 ≠ editDistanceLevenshtein (bytes "craneberries") (toLowerCopy r.1) :=
          fun e => hd e.symm
        simp only [rankedLess, ne_eq, hd', not_false_eq_true, if_true, decide_eq_true_eq]
        omega
    obtain ⟨t, ht⟩ := stdSort_head_of_least strictWeak_rankedLess _ _ hx hleast
    rw [suggestionsFor_eq_take, ht]
    have hk : keepRanked ((1, false, bytes "Cranberries") : Ranked) = true := by decide
    simp [List.filter_cons, hk]

/-- The amended C13 on the entries `Crackers`, `Cranberries`, `Cranes`. -/
theorem suggestionsFor_craneberries_witness :
    bytes "Cranberries" ∈
        [(bytes "Crackers", 1), (bytes "Cranberries", 3), (bytes "Cranes", 1)].map Prod.fst ∧
      (suggestionsFor (bytes "craneberries")
          [(bytes "Crackers", 1), (bytes "Cranberries", 3), (bytes "Cranes", 1)] 3).head? =
        some (bytes "Cranberries") :=
  ⟨by decide,
    (suggestionsFor_craneberries
      [(bytes "Crackers", 1), (bytes "Cranberries", 3), (bytes "Cranes", 1)]
      (by decide)).2.2 (by decide)⟩

/-- A list sorted for a strict weak order splits, for any `x`, into the
elements ranked before `x` followed by the others. -/
theorem sorted_filter_split {α : Type} {comp : α → α → Bool} (h : StrictWeak comp) (x : α) :
    ∀ (L : List α), L.Pairwise (fun a b => comp b a = false) →
      L = L.filter (fun y => comp y x) ++ L.filter (fun y => !comp y x)
  | [], _ => rfl
  | a :: t, hs => by
    rw [List.pairwise_cons] at hs
    have ih := sorted_filter_split h x t hs.2
    cases hax : comp a x with
    | true =>
      simp only [List.filter_cons, hax, if_true, Bool.not_true, Bool.false_eq_true,
        if_false, List.cons_append]
      rw [← ih]
    | false =>
      have hnone : t.filter (fun y => comp y x) = [] := by
        rw [List.filter_eq_nil_iff]
        intro y hy
        rw [h.negTrans x a y hax (hs.1 y hy)]
        simp
      have hall : t.filter (fun y => !comp y x) = t := by
        rw [List.filter_eq_self]
        intro y hy
        rw [h.negTrans x a y hax (hs.1 y hy)]
        rfl
      simp [List.filter_cons, hax, hnone, hall]

/-- In a list sorted for a strict total order, the elements not ranked before
a member `x` start with `x`. -/
theorem sorted_filter_head {α : Type} {comp : α → α → Bool} (h : StrictTotal comp) (x : α)
    (L : List α) (hs : L.Pairwise (fun a b => comp b a = false)) (hx : x ∈ L) :
    ∃ rest, L.filter (fun y => !comp y x) = x :: rest := by
  have hx2 : x ∈ L.filter (fun y => !comp y x) :=
    List.mem_filter.mpr ⟨hx, by rw [h.irrefl x]; rfl⟩
  have hs2 := hs.filter (fun y => !comp y x)
  cases hL : L.filter (fun y => !comp y x) with
  | nil => rw [hL] at hx2; exact absurd hx2 (List.not_mem_nil _)
  | cons a t =>
    rw [hL] at hx2 hs2
    by_cases hax : a = x
    · exact ⟨t, by rw [hax]⟩
    · exfalso
      have hxt : x ∈ t := by
        rcases List.mem_cons.mp hx2 with e | e
        · exact absurd e.symm hax
        · exact e
      have h1 : comp x a = false := (List.pairwise_cons.mp hs2).1 x hxt
      have ha : a ∈ L.filter (fun y => !comp y x) := by
        rw [hL]
        exact List.mem_cons_self _ _
      have h2 : comp a x = false := by
        have := (List.mem_filter.mp ha).2
        simpa using this
      exact hax (h.total a x h2 h1)

theorem mem_take_append_cons {α : Type} (before after : List α) (c : α) (j : Nat)
    (hnot : c ∉ before) : c ∈ (before ++ c :: after).take j ↔ before.length < j := by
  rw [List.take_append_eq_append_take, List.mem_append]
  constructor
  · rintro (h | h)
    · exact absurd (List.mem_of_mem_take h) hnot
    · by_contra hlt
      have h0 : j - before.length = 0 := by omega
      rw [h0] at h
      simp at h
  · intro hlt
    right
    obtain ⟨i, hi⟩ : ∃ i, j - before.length = i + 1 := ⟨j - before.length - 1, by omega⟩
    rw [hi, List.take_succ_cons]
    exact List.mem_cons_self _ _

/-- C14 as stated fails.  With the entries `Crackers` and `Cranberries` the
query `cran` gets `Cranberries` only: `Crackers` is not a prefix match and its
edit distance to `cran` is 5, so the filter of the collection loop drops it.
And `Cranberries` itself is missing from the result when three prefix matches
with byte-wise smaller names are present, as with `Cran A`, `Cran B`,
`Cran C`. -/
theorem cran_suggestions_counterexample :
    (bytes "Cranberries" ∈ [(bytes "Crackers", 1), (bytes "Cranberries", 1)].map Prod.fst ∧
      bytes "Crackers" ∈ [(bytes "Crackers", 1), (bytes "Cranberries", 1)].map Prod.fst ∧
      editDistanceLevenshtein (bytes "cran") (bytes "crackers") = 5 ∧
      suggestionsFor (bytes "cran") [(bytes "Crackers", 1), (bytes "Cranberries", 1)] 3 =
        [bytes "Cranberries"] ∧
      bytes "Crackers" ∉
        suggestionsFor (bytes "cran") [(bytes "Crackers", 1), (bytes "Cranberries", 1)] 3) ∧
    (bytes "Cranberries" ∈
        [(bytes "Crackers", 1), (bytes "Cran A", 1), (bytes "Cran B", 1), (bytes "Cran C", 1),
          (bytes "Cranberries", 1)].map Prod.fst ∧
      bytes "Crackers" ∈
        [(bytes "Crackers", 1), (bytes "Cran A", 1), (bytes "Cran B", 1), (bytes "Cran C", 1),
          (bytes "Cranberries", 1)].map Prod.fst ∧
      suggestionsFor (bytes "cran")
          [(bytes "Crackers", 1), (bytes "Cran A", 1), (bytes "Cran B", 1), (bytes "Cran C", 1),
            (bytes "Cranberries", 1)] 3 =
        [bytes "Cran A", bytes "Cran B", bytes "Cran C"]) := by
  decide

/-- C14, amended: for every entry list that contains `Cranberries` and
`Crackers` and the query `cran`, the sorted ranking puts `Cranberries` (a
prefix match, score 0) before `Crackers` (score 5); the suggestions are never
empty and never contain `Crackers`, for any `maxResults`; and with
`maxResults = 3` they are the first three names of a list in which
`Cranberries` stands right after the entries that are prefix matches with a
byte-wise smaller display name.  So `Cranberries` is returned exactly when
there are fewer than three such entries, and it is first when there are
none. -/
theorem cran_suggestions_drop_crackers (entries : List Row)
    (h1 : bytes "Cranberries" ∈ entries.map Prod.fst)
    (h2 : bytes "Crackers" ∈ entries.map Prod.fst) :
    List.Sublist [((0, true, bytes "Cranberries") : Ranked), (5, false, bytes "Crackers")]
        (stdSort rankedLess (entries.map (rankRow (bytes "cran")))) ∧
      suggestionsFor (bytes "cran") entries 3 ≠ [] ∧
      (∀ m, bytes "Crackers" ∉ suggestionsFor (bytes "cran") entries m) ∧
      (∃ before after : List Str,
        before.length = (entries.filter (fun r =>
          startsWith (toLowerCopy r.1) (bytes "cran") &&
            strLt r.1 (bytes "Cranberries"))).length ∧
        (∀ n ∈ before, startsWith (toLowerCopy n) (bytes "cran") = true ∧
          strLt n (bytes "Cranberries") = true) ∧
        suggestionsFor (bytes "cran") entries 3 =
          (before ++ bytes "Cranberries" :: after).take 3) ∧
      (bytes "Cranberries" ∈ suggestionsFor (bytes "cran") entries 3 ↔
        (entries.filter (fun r =>
          startsWith (toLowerCopy r.1) (bytes "cran") &&
            strLt r.1 (bytes "Cranberries"))).length < 3) ∧
      ((entries.filter (fun r =>
          startsWith (toLowerCopy r.1) (bytes "cran") &&
            strLt r.1 (bytes "Cranberries"))).length = 0 →
        (suggestionsFor (bytes "cran") entries 3).head? = some (bytes "Cranberries")) := by
  obtain ⟨r0, hr0, hr0n⟩ := List.mem_map.mp h1
  obtain ⟨rk, hrk, hrkn⟩ := List.mem_map.mp h2
  have hrankC : rankRow (bytes "cran") (bytes "Cranberries", 0) =
      (0, true, bytes "Cranberries") := by decide
  have hrankK : rankRow (bytes "cran") (bytes "Crackers", 0) =
      (5, false, bytes "Crackers") := by decide
  have hrank0 : rankRow (bytes "cran") r0 = (0, true, bytes "Cranberries") := by
    rw [rankRow_name, hr0n, hrankC]
  have hrank1 : rankRow (bytes "cran") rk = (5, false, bytes "Crackers") := by
    rw [rankRow_name, hrkn, hrankK]
  have hkeep0 : keepRanked (rankRow (bytes "cran") r0) = true := by
    rw [hrank0]
    decide
  have hsorted := stdSort_sorted strictWeak_rankedLess (entries.map (rankRow (bytes "cran")))
  have hperm := stdSort_perm rankedLess (entries.map (rankRow (bytes "cran")))
  have hxL : ((0, true, bytes "Cranberries") : Ranked) ∈
      stdSort rankedLess (entries.map (rankRow (bytes "cran"))) := by
    rw [← hrank0]
    exact hperm.mem_iff.mpr (List.mem_map_of_mem _ hr0)
  have hkL : ((5, false, bytes "Crackers") : Ranked) ∈
      stdSort rankedLess (entries.map (rankRow (bytes "cran"))) := by
    rw [← hrank1]
    exact hperm.mem_iff.mpr (List.mem_map_of_mem _ hrk)
  -- the elements ranked before `Cranberries`
  have hbefore : ∀ r : Row,
      rankedLess (rankRow (bytes "cran") r) (0, true, bytes "Cranberries") =
        (startsWith (toLowerCopy r.1) (bytes "cran") &&
          strLt r.1 (bytes "Cranberries")) := by
    intro r
    cases hp : startsWith (toLowerCopy r.1) (bytes "cran") with
    | true => simp [rankRow, rankedLess, hp]
    | false =>
      have hpos := editDistance_pos_of_not_startsWith _ _ hp
      have hne : editDistanceLevenshtein (bytes "cran") (toLowerCopy r.1) ≠ 0 := by omega
      simp [rankRow, rankedLess, hp, hne]
  have hsplit := sorted_filter_split strictWeak_rankedLess
    ((0, true, bytes "Cranberries") : Ranked) _ hsorted
  obtain ⟨rest, hrest⟩ := sorted_filter_head strictTotal_rankedLess
    ((0, true, bytes "Cranberries") : Ranked) _ hsorted hxL
  have hL1 : ∀ y ∈ (stdSort rankedLess (entries.map (rankRow (bytes "cran")))).filter
      (fun y => rankedLess y (0, true, bytes "Cranberries")),
      startsWith (toLowerCopy y.2.2) (bytes "cran") = true ∧
        strLt y.2.2 (bytes "Cranberries") = true ∧ keepRanked y = true := by
    intro y hy
    obtain ⟨hyL, hyb⟩ := List.mem_filter.mp hy
    obtain ⟨r, _, hry⟩ := List.mem_map.mp (hperm.mem_iff.mp hyL)
    rw [← hry, hbefore r] at hyb
    have hb := Bool.and_eq_true_iff.mp hyb
    rw [← hry]
    refine ⟨hb.1, hb.2, ?_⟩
    simp only [keepRanked, rankRow, hb.1]
    rfl
  have hlen : ((stdSort rankedLess (entries.map (rankRow (bytes "cran")))).filter
      (fun y => rankedLess y (0, true, bytes "Cranberries"))).length =
      (entries.filter (fun r => startsWith (toLowerCopy r.1) (bytes "cran") &&
        strLt r.1 (bytes "Cranberries"))).length := by
    rw [(hperm.filter _).length_eq, List.filter_map, List.length_map]
    congr 1
    exact List.filter_congr (fun r _ => hbefore r)
  have hresult : suggestionsFor (bytes "cran") entries 3 =
      ((((stdSort rankedLess (entries.map (rankRow (bytes "cran")))).filter
        (fun y => rankedLess y (0, true, bytes "Cranberries"))).map (fun t => t.2.2)) ++
        bytes "Cranberries" :: ((rest.filter keepRanked).map (fun t => t.2.2))).take 3 := by
    rw [suggestionsFor_eq_take]
    conv_lhs => rw [hsplit]
    rw [List.filter_append, hrest, List.filter_eq_self.mpr (fun y hy => (hL1 y hy).2.2)]
    have hk : keepRanked ((0, true, bytes "Cranberries") : Ranked) = true := by decide
    simp [List.filter_cons, hk]
  have hnames : ∀ n ∈ ((stdSort rankedLess (entries.map (rankRow (bytes "cran")))).filter
      (fun y => rankedLess y (0, true, bytes "Cranberries"))).map (fun t => t.2.2),
      startsWith (toLowerCopy n) (bytes "cran") = true ∧
        strLt n (bytes "Cranberries") = true := by
    intro n hn
    obtain ⟨y, hy, hyn⟩ := List.mem_map.mp hn
    rw [← hyn]
    exact ⟨(hL1 y hy).1, (hL1 y hy).2.1⟩
  have hnot : bytes "Cranberries" ∉
      ((stdSort rankedLess (entries.map (rankRow (bytes "cran")))).filter
        (fun y => rankedLess y (0, true, bytes "Cranberries"))).map (fun t => t.2.2) := by
    intro hmem
    have := (hnames _ hmem).2
    rw [strLt_irrefl] at this
    exact absurd this (by simp)
  refine ⟨?_, suggestionsFor_ne_nil _ entries 3 r0 hr0 hkeep0, ?_, ?_, ?_, ?_⟩
  · rcases sublist_pair_or ((0, true, bytes "Cranberries") : Ranked)
        (5, false, bytes "Crackers") (by decide) _ hxL hkL with h | h
    · exact h
    · exfalso
      have := rel_of_sublist_pair hsorted h
      exact absurd this (by decide)
  · intro m hmem
    obtain ⟨r, _, hrn, hkeep⟩ := mem_suggestionsFor _ entries m _ hmem
    rw [rankRow_name, hrn] at hkeep
    exact absurd hkeep (by decide)
  · exact ⟨_, _, by rw [List.length_map, hlen], hnames, hresult⟩
  · rw [hresult, mem_take_append_cons _ _ _ 3 hnot, List.length_map, hlen]
  · intro h0
    rw [← hlen] at h0
    rw [hresult, List.length_eq_zero.mp h0]
    rfl

/-- The amended C14 on the entries `Crackers`, `Cranberries`, `Crane`,
`Crank`, `Cranky`: four entries are prefix matches, none of them byte-wise
smaller than `Cranberries`, which is returned first. -/
theorem cran_suggestions_drop_crackers_witness :
    (bytes "Cranberries" ∈
        [(bytes "Crackers", 1), (bytes "Cranberries", 3), (bytes "Crane", 1),
          (bytes "Crank", 1), (bytes "Cranky", 1)].map Prod.fst ∧
      bytes "Crackers" ∈
        [(bytes "Crackers", 1), (bytes "Cranberries", 3), (bytes "Crane", 1),
          (bytes "Crank", 1), (bytes "Cranky", 1)].map Prod.fst) ∧
    suggestionsFor (bytes "cran")
        [(bytes "Crackers", 1), (bytes "Cranberries", 3), (bytes "Crane", 1),
          (bytes "Crank", 1), (bytes "Cranky", 1)] 3 =
      [bytes "Cranberries", bytes "Crane", bytes "Crank"] ∧
    bytes "Crackers" ∉ suggestionsFor (bytes "cran")
        [(bytes "Crackers", 1), (bytes "Cranberries", 3), (bytes "Crane", 1),
          (bytes "Crank", 1), (bytes "Cranky", 1)] 3 ∧
    bytes "Cranberries" ∈ suggestionsFor (bytes "cran")
        [(bytes "Crackers", 1), (bytes "Cranberries", 3), (bytes "Crane", 1),
          (bytes "Crank", 1), (bytes "Cranky", 1)] 3 ∧
    (suggestionsFor (bytes "cran")
        [(bytes "Crackers", 1), (bytes "Cranberries", 3), (bytes "Crane", 1),
          (bytes "Crank", 1), (bytes "Cranky", 1)] 3).head? = some (bytes "Cranberries") :=
  ⟨by decide, by decide,
    (cran_suggestions_drop_crackers
      [(bytes "Crackers", 1), (bytes "Cranberries", 3), (bytes "Crane", 1),
        (bytes "Crank", 1), (bytes "Cranky", 1)]
      (by decide) (by decide)).2.2.1 3,
    (cran_suggestions_drop_crackers
      [(bytes "Crackers", 1), (bytes "Cranberries", 3), (bytes "Crane", 1),
        (bytes "Crank", 1), (bytes "Cranky", 1)]
      (by decide) (by decide)).2.2.2.2.1.mpr (by decide),
    (cran_suggestions_drop_crackers
      [(bytes "Crackers", 1), (bytes "Cranberries", 3), (bytes "Crane", 1),
        (bytes "Crank", 1), (bytes "Cranky", 1)]
      (by decide) (by decide)).2.2.2.2.2 (by decide)⟩

/-! ## The backup writer -/

theorem writeBackup_wellFormed (t : FrequencyTable) (h : WellFormed t) (stamp : Str)
    (fs : FsOutcome) :
    t.writeBackup stamp fs =
      if fs.openOk = false ∨ (fs.renameOk = false ∧ fs.removeOk = false) then
        Except.error Exn.runtimeError
      else
        Except.ok (backupHeader t stamp :: (stdSort nameLess (entriesOf t)).map backupRow) := by
  obtain ⟨o, r, c, d⟩ := fs
  simp only [FrequencyTable.writeBackup, itemsSortedByName_wellFormed t h, setEc]
  cases o <;> cases r <;> cases d <;> simp

/-- What `writeBackup` does on a loaded table: it throws exactly when the
temporary cannot be opened, or the rename fails and the removal of the
temporary fails.  The outcome of the fallback copy plays no part. -/
theorem writeBackup_throws_iff (t0 : FrequencyTable) (lines : List Str) (stamp : Str)
    (fs : FsOutcome) :
    ∃ t, load t0 (some lines) = Except.ok t ∧
      ((∃ e, t.writeBackup stamp fs = Except.error e) ↔
        (fs.openOk = false ∨ (fs.renameOk = false ∧ fs.removeOk = false))) := by
  have hwf := wellFormed_foldl lines _ (wellFormed_cleared t0)
  refine ⟨_, rfl, ?_⟩
  rw [writeBackup_wellFormed _ hwf]
  by_cases hc : fs.openOk = false ∨ (fs.renameOk = false ∧ fs.removeOk = false)
  · simp only [hc, if_true, iff_true]
    exact ⟨_, rfl⟩
  · simp only [hc, if_false, iff_false]
    rintro ⟨e, he⟩
    cases he

/-- C15: the code misses the failed fallback copy.  On a table loaded from the
line `Apples`, with the temporary opened, the rename failing, `copy_file`
failing and `remove` succeeding, finalization has failed, yet `writeBackup`
returns normally: `remove` has overwritten the error code that `copy_file`
set. -/
theorem writeBackup_swallows_copy_failure :
    ∃ t, load ⟨bytes "in.txt", [], []⟩ (some [bytes "Apples"]) = Except.ok t ∧
      finalizationFails ⟨true, false, false, true⟩ = true ∧
      t.writeBackup (bytes "2025-10-19 12:00:00") ⟨true, false, false, true⟩ =
        Except.ok [bytes "# frequency.dat generated 2025-10-19 12:00:00 from in.txt",
          bytes "Apples 1"] ∧
      t.writeBackup (bytes "2025-10-19 12:00:00") ⟨false, true, true, true⟩ =
        Except.error Exn.runtimeError ∧
      t.writeBackup (bytes "2025-10-19 12:00:00") ⟨true, false, false, false⟩ =
        Except.error Exn.runtimeError :=
  ⟨_, rfl, rfl, rfl, rfl, rfl⟩

/-! ## Blank input -/

theorem foldl_loadLine_blank (lines : List Str) (t : FrequencyTable)
    (hblank : ∀ l ∈ lines, trim l = []) : lines.foldl loadLine t = t := by
  induction lines generalizing t with
  | nil => rfl
  | cons l rest ih =>
    have hl : loadLine t l = t := by
      simp [loadLine, hblank l (List.mem_cons_self _ _)]
    rw [List.foldl_cons, hl]
    exact ih t (fun l' h' => hblank l' (List.mem_cons_of_mem _ h'))

/-- C16: when every input line is empty after trimming (in particular when
there are no lines), `load` succeeds with no items and no purchases, all three
sorted views are empty, and a backup that is written consists of the header
line alone; with all file-system calls succeeding it is written. -/
theorem load_blank_input (t0 : FrequencyTable) (lines : List Str)
    (hblank : ∀ l ∈ lines, trim l = []) :
    ∃ t, load t0 (some lines) = Except.ok t ∧
      uniqueItemCount t = 0 ∧ totalPurchases t = 0 ∧
      itemsSortedByName t = Except.ok [] ∧
      itemsSortedByFreqDesc t = Except.ok [] ∧
      itemsSortedByFreqAsc t = Except.ok [] ∧
      (∀ stamp, t.writeBackup stamp ⟨true, true, true, true⟩ =
        Except.ok [backupHeader t stamp]) ∧
      (∀ stamp fs content, t.writeBackup stamp fs = Except.ok content →
        content = [backupHeader t stamp]) := by
  refine ⟨_, rfl, ?_⟩
  rw [foldl_loadLine_blank lines _ hblank]
  refine ⟨rfl, rfl, rfl, rfl, rfl, fun stamp => rfl, ?_⟩
  intro stamp fs content h
  obtain ⟨o, r, c, d⟩ := fs
  cases o <;> cases r <;> cases d <;>
    simp [FrequencyTable.writeBackup, itemsSortedByName, collectRows, stdSort, setEc] at h <;>
    exact h.symm

/-- The blank-input case on the three lines: empty, two spaces, tab and
carriage return. -/
theorem load_blank_input_witness :
    (∀ l ∈ ([[], [32, 32], [9, 13]] : List Str), trim l = []) ∧
      ∃ t, load ⟨bytes "in.txt", [], []⟩ (some [[], [32, 32], [9, 13]]) = Except.ok t ∧
        uniqueItemCount t = 0 ∧ totalPurchases t = 0 ∧
        itemsSortedByName t = Except.ok [] ∧
        itemsSortedByFreqDesc t = Except.ok [] ∧
        itemsSortedByFreqAsc t = Except.ok [] ∧
        (∀ stamp, t.writeBackup stamp ⟨true, true, true, true⟩ =
          Except.ok [backupHeader t stamp]) ∧
        (∀ stamp fs content, t.writeBackup stamp fs = Except.ok content →
          content = [backupHeader t stamp]) :=
  ⟨by decide, load_blank_input ⟨bytes "in.txt", [], []⟩ [[], [32, 32], [9, 13]] (by decide)⟩

/-! ## The histogram scale -/

theorem wrapInt_of_range (x : Int) (h1 : -2147483648 ≤ x) (h2 : x < 2147483648) :
    wrapInt x = x := by
  unfold wrapInt
  omega

theorem foldl_max_ge (rows : List (Str × Int)) :
    ∀ init : Int, init ≤ rows.foldl (fun m r => max m r.2) init ∧
      ∀ r ∈ rows, r.2 ≤ rows.foldl (fun m r => max m r.2) init := by
  induction rows with
  | nil => intro init; simp
  | cons p rest ih =>
    intro init
    obtain ⟨h1, h2⟩ := ih (max init p.2)
    refine ⟨le_trans (le_max_left _ _) h1, ?_⟩
    intro r hr
    rcases List.mem_cons.mp hr with e | e
    · rw [e]; exact le_trans (le_max_right _ _) h1
    · exact h2 r e

theorem foldl_max_mem (rows : List (Str × Int)) :
    ∀ init : Int, rows.foldl (fun m r => max m r.2) init = init ∨
      ∃ r ∈ rows, r.2 = rows.foldl (fun m r => max m r.2) init := by
  induction rows with
  | nil => intro init; exact Or.inl rfl
  | cons p rest ih =>
    intro init
    rcases ih (max init p.2) with h | ⟨r, hr, hrv⟩
    · rw [List.foldl_cons, h]
      rcases max_choice init p.2 with e | e
      · exact Or.inl e
      · exact Or.inr ⟨p, List.mem_cons_self _ _, e.symm⟩
    · exact Or.inr ⟨r, List.mem_cons_of_mem _ hr, hrv⟩

theorem histBars_bounds (c s M : Int) (hc1 : 1 ≤ c) (hcM : c ≤ M) (hs1 : 1 ≤ s)
    (hMs : M ≤ 50 * s) (hsmall : M + s < 2147483648) :
    histBars c s = (c + s - 1) / s ∧ 1 ≤ histBars c s ∧ histBars c s ≤ 50 := by
  have hw1 : wrapInt (c + s) = c + s := wrapInt_of_range _ (by omega) (by omega)
  have hw2 : wrapInt (c + s - 1) = c + s - 1 := wrapInt_of_range _ (by omega) (by omega)
  have hb : histBars c s = (c + s - 1) / s := by
    unfold histBars
    rw [hw1, hw2, Int.tdiv_eq_ediv (by omega) (by omega)]
  have hspos : 0 < s := by omega
  refine ⟨hb, ?_, ?_⟩
  · rw [hb]
    exact Int.le_ediv_of_mul_le hspos (by omega)
  · rw [hb]
    have : (c + s - 1) / s < 51 := Int.ediv_lt_of_lt_mul hspos (by omega)
    omega

/-- C18 as stated fails.  For the single row `(a, 2140000000)` the sum
`maxCount + 49` still fits a 32-bit `int` and `scale` is 42800000, but
`count + scale` does not fit: with wrap-around the bar length comes out as
`-49`. -/
theorem printHistogram_overflow_counterexample :
    ([(bytes "a", 2140000000)] : List (Str × Int)) ≠ [] ∧
      (∀ r ∈ ([(bytes "a", 2140000000)] : List (Str × Int)), 0 < r.2) ∧
      histMaxCount [(bytes "a", 2140000000)] + 49 < 2147483648 ∧
      printHistogram [(bytes "a", 2140000000)] = some (42800000, [-49]) ∧
      ¬ (∀ b ∈ ([-49] : List Int), 1 ≤ b ∧ b ≤ 50) := by
  decide

/-- C18, amended: for every non-empty list of rows with positive counts that
are small enough for `maxCount + ceil(maxCount / 50)` to fit a 32-bit `int`,
`printHistogram` uses `scale = (maxCount > 50 ? ceil(maxCount/50) : 1)` and
`bars = ceil(count/scale)`, and every bar, that of a row with the maximum
count included, has between 1 and 50 characters. -/
theorem printHistogram_bars_bounded (rows : List (Str × Int)) (hne : rows ≠ [])
    (hpos : ∀ r ∈ rows, 0 < r.2)
    (hsmall : histMaxCount rows + (histMaxCount rows + 49) / 50 < 2147483648) :
    ∃ scale bars, printHistogram rows = some (scale, bars) ∧
      scale = (if histMaxCount rows > 50 then (histMaxCount rows + 49) / 50 else 1) ∧
      bars = rows.map (fun r => (r.2 + scale - 1) / scale) ∧
      (∀ r ∈ rows, r.2 ≤ histMaxCount rows) ∧
      (∃ r ∈ rows, r.2 = histMaxCount rows) ∧
      ∀ b ∈ bars, 1 ≤ b ∧ b ≤ 50 := by
  have hge := (foldl_max_ge rows 0).2
  have hmem : ∃ r ∈ rows, r.2 = histMaxCount rows := by
    rcases foldl_max_mem rows 0 with h | h
    · exfalso
      obtain ⟨r, hr⟩ := List.exists_mem_of_ne_nil rows hne
      have h1 := hge r hr
      have h2 := hpos r hr
      rw [h] at h1
      omega
    · exact h
  have hM1 : 1 ≤ histMaxCount rows := by
    obtain ⟨r, hr, hrv⟩ := hmem
    have := hpos r hr
    omega
  have hscale : histScale (histMaxCount rows) =
      (if histMaxCount rows > 50 then (histMaxCount rows + 49) / 50 else 1) := by
    unfold histScale
    by_cases h50 : histMaxCount rows > 50
    · rw [if_pos h50, if_pos h50, wrapInt_of_range _ (by omega) (by omega),
        Int.tdiv_eq_ediv (by omega) (by omega)]
    · rw [if_neg h50, if_neg h50]
  have hs1 : 1 ≤ histScale (histMaxCount rows) := by
    rw [hscale]
    split_ifs <;> omega
  have hMs : histMaxCount rows ≤ 50 * histScale (histMaxCount rows) := by
    rw [hscale]
    split_ifs <;> omega
  have hsum : histMaxCount rows + histScale (histMaxCount rows) < 2147483648 := by
    rw [hscale]
    split_ifs <;> omega
  have hbars : ∀ r ∈ rows, histBars r.2 (histScale (histMaxCount rows)) =
      (r.2 + histScale (histMaxCount rows) - 1) / histScale (histMaxCount rows) ∧
      1 ≤ histBars r.2 (histScale (histMaxCount rows)) ∧
      histBars r.2 (histScale (histMaxCount rows)) ≤ 50 := by
    intro r hr
    have h1 := hpos r hr
    exact histBars_bounds r.2 _ (histMaxCount rows) (by omega) (hge r hr) hs1 hMs hsum
  refine ⟨histScale (histMaxCount rows), rows.map (fun r => histBars r.2
    (histScale (histMaxCount rows))), ?_, hscale, ?_, hge, hmem, ?_⟩
  · simp [printHistogram, hne]
  · exact List.map_congr_left (fun r hr => (hbars r hr).1)
  · intro b hb
    obtain ⟨r, hr, hrb⟩ := List.mem_map.mp hb
    rw [← hrb]
    exact (hbars r hr).2

/-- The amended C18 on the rows `(a, 120)`, `(b, 7)`, `(c, 1)`: the scale is 3
and the bars are 40, 3 and 1 characters long. -/
theorem printHistogram_bars_bounded_witness :
    (([(bytes "a", 120), (bytes "b", 7), (bytes "c", 1)] : List (Str × Int)) ≠ [] ∧
      (∀ r ∈ ([(bytes "a", 120), (bytes "b", 7), (bytes "c", 1)] : List (Str × Int)),
        0 < r.2) ∧
      histMaxCount [(bytes "a", 120), (bytes "b", 7), (bytes "c", 1)] +
        (histMaxCount [(bytes "a", 120), (bytes "b", 7), (bytes "c", 1)] + 49) / 50 <
          2147483648) ∧
    printHistogram [(bytes "a", 120), (bytes "b", 7), (bytes "c", 1)] =
      some (3, [40, 3, 1]) ∧
    ∃ scale bars, printHistogram [(bytes "a", 120), (bytes "b", 7), (bytes "c", 1)] =
        some (scale, bars) ∧ ∀ b ∈ bars, 1 ≤ b ∧ b ≤ 50 :=
  ⟨by decide, by decide,
    (printHistogram_bars_bounded [(bytes "a", 120), (bytes "b", 7), (bytes "c", 1)]
      (by decide) (by decide) (by decide)).imp
      (fun _ h => h.imp (fun _ h' => ⟨h'.1, h'.2.2.2.2.2⟩))⟩

/-! ## Prefix matches come first -/

theorem rankRow_score (q : Str) (r : Row) :
    (startsWith (toLowerCopy r.1) q = true → (rankRow q r).1 = 0) ∧
      (startsWith (toLowerCopy r.1) q = false → 1 ≤ (rankRow q r).1) := by
  constructor
  · intro h
    simp [rankRow, h]
  · intro h
    simp only [rankRow, h]
    exact editDistance_pos_of_not_startsWith _ _ h

theorem sorted_ranked_prefix_first (q : Str) (entries : List Row) :
    (stdSort rankedLess (entries.map (rankRow q))).Pairwise
      (fun A B => startsWith (toLowerCopy B.2.2) q = true →
        startsWith (toLowerCopy A.2.2) q = true) := by
  refine (stdSort_sorted strictWeak_rankedLess (entries.map (rankRow q))).imp_of_mem ?_
  intro A B hA hB hBA hpreB
  obtain ⟨rA, _, hrA⟩ := List.mem_map.mp ((stdSort_perm _ _).mem_iff.mp hA)
  obtain ⟨rB, _, hrB⟩ := List.mem_map.mp ((stdSort_perm _ _).mem_iff.mp hB)
  rw [← hrA, ← hrB] at hBA
  rw [← hrB] at hpreB
  rw [← hrA]
  change startsWith (toLowerCopy rB.1) q = true at hpreB
  show startsWith (toLowerCopy rA.1) q = true
  by_contra hpreA
  have hA0 : startsWith (toLowerCopy rA.1) q = false := by simpa using hpreA
  have hsB := (rankRow_score q rB).1 hpreB
  have hsA := (rankRow_score q rA).2 hA0
  have hne : (rankRow q rB).1 ≠ (rankRow q rA).1 := by omega
  have hlt : (rankRow q rB).1 < (rankRow q rA).1 := by omega
  simp only [rankedLess, ne_eq, hne, not_false_eq_true, if_true, decide_eq_false_iff_not]
    at hBA
  exact hBA hlt

theorem strictWeak_strLt : StrictWeak strLt := by
  have := strictWeak_of_key strictTotal_strLt (fun s : Str => s)
  exact this

theorem suggestionsFor_empty_query (entries : List Row) (m : Nat) :
    suggestionsFor [] entries m = (stdSort strLt (entries.map Prod.fst)).take (max m 1) := by
  have hmap : entries.map (rankRow []) =
      (entries.map Prod.fst).map (fun n => ((0, true, n) : Ranked)) := by
    rw [List.map_map]
    refine List.map_congr_left (fun r _ => ?_)
    simp [rankRow, startsWith]
  have hsorted : ((stdSort strLt (entries.map Prod.fst)).map
      (fun n => ((0, true, n) : Ranked))).Pairwise (fun A B => rankedLess B A = false) := by
    rw [List.pairwise_map]
    refine (stdSort_sorted strictWeak_strLt _).imp ?_
    intro a b h
    simpa [rankedLess] using h
  have huniq := stdSort_unique strictWeak_rankedLess
    ((entries.map Prod.fst).map (fun n => ((0, true, n) : Ranked)))
    ((stdSort strLt (entries.map Prod.fst)).map (fun n => ((0, true, n) : Ranked)))
    ((stdSort_perm _ _).map _) hsorted
    (fun a _ b _ h1 h2 => strictTotal_rankedLess.total a b h1 h2)
  rw [suggestionsFor_eq_take, hmap, ← huniq, List.filter_map, List.map_map]
  have hall : (stdSort strLt (entries.map Prod.fst)).filter
      (keepRanked ∘ fun n => ((0, true, n) : Ranked)) = stdSort strLt (entries.map Prod.fst) :=
    List.filter_eq_self.mpr (fun n _ => rfl)
  rw [hall]
  have hid : ((fun t : Ranked => t.2.2) ∘ fun n => ((0, true, n) : Ranked)) = id := rfl
  rw [hid, List.map_id]

/-- C19: for a lowercased query, in the list `suggestionsFor` returns no name
of which the query is not a case-insensitive prefix comes before a name of
which it is: a prefix match has score 0 and every other candidate has score
at least 1.  For the empty query every entry is a prefix match and the result
consists of the byte-wise smallest names, in ascending order. -/
theorem suggestionsFor_prefix_first (q : Str) (entries : List Row) (m : Nat)
    (hq : toLowerCopy q = q) :
    (suggestionsFor q entries m).Pairwise
        (fun x y => (toLowerCopy q).isPrefixOf (toLowerCopy y) = true →
          (toLowerCopy q).isPrefixOf (toLowerCopy x) = true) ∧
      (∀ r ∈ entries,
        ((toLowerCopy q).isPrefixOf (toLowerCopy r.1) = true → (rankRow q r).1 = 0) ∧
        ((toLowerCopy q).isPrefixOf (toLowerCopy r.1) = false → 1 ≤ (rankRow q r).1)) ∧
      (∀ r ∈ entries, ([] : Str).isPrefixOf (toLowerCopy r.1) = true) ∧
      suggestionsFor [] entries m =
        (stdSort strLt (entries.map Prod.fst)).take (max m 1) := by
  rw [hq]
  refine ⟨?_, fun r _ => rankRow_score q r, fun r _ => List.isPrefixOf_nil_left,
    suggestionsFor_empty_query entries m⟩
  rw [suggestionsFor_eq_take]
  refine List.Pairwise.sublist (List.take_sublist _ _) ?_
  rw [List.pairwise_map]
  exact (sorted_ranked_prefix_first q entries).filter _

/-- The prefix-first order for the query `cr` over `Crab`, `Car`, `Cream`,
`cry`: the three prefix matches fill the result. -/
theorem suggestionsFor_prefix_first_witness :
    toLowerCopy (bytes "cr") = bytes "cr" ∧
      suggestionsFor (bytes "cr")
          [(bytes "Car", 1), (bytes "cry", 1), (bytes "Cream", 2), (bytes "Crab", 1)] 3 =
        [bytes "Crab", bytes "Cream", bytes "cry"] ∧
      (suggestionsFor (bytes "cr")
          [(bytes "Car", 1), (bytes "cry", 1), (bytes "Cream", 2), (bytes "Crab", 1)]
          3).Pairwise
        (fun x y => (toLowerCopy (bytes "cr")).isPrefixOf (toLowerCopy y) = true →
          (toLowerCopy (bytes "cr")).isPrefixOf (toLowerCopy x) = true) :=
  ⟨by decide, by decide,
    (suggestionsFor_prefix_first (bytes "cr")
      [(bytes "Car", 1), (bytes "cry", 1), (bytes "Cream", 2), (bytes "Crab", 1)] 3
      (by decide)).1⟩

/-! ## The invariant established by `load` -/

theorem trim_no_edge_space (s : Str) :
    (∀ c, (trim s).head? = some c → isspace c = false) ∧
      (∀ c, (trim s).getLast? = some c → isspace c = false) := by
  constructor
  · intro c hc
    have hdrop : (trim s).dropWhile isspace = trim s :=
      dropWhile_eq_self_of_initial isspace (List.rdropWhile_prefix _ _)
        (List.dropWhile_idempotent _ _)
    cases ht : trim s with
    | nil => rw [ht] at hc; simp at hc
    | cons a rest =>
      rw [ht] at hc hdrop
      simp only [List.head?_cons, Option.some.injEq] at hc
      rw [List.dropWhile_eq_self_iff] at hdrop
      have := hdrop (by simp)
      simp only [List.get_eq_getElem, List.getElem_cons_zero] at this
      rw [← hc]
      simpa using this
  · intro c hc
    have hne : trim s ≠ [] := by
      intro e
      rw [e] at hc
      simp at hc
    have hlast : (trim s).getLast hne = c := by
      rw [List.getLast?_eq_getLast _ hne] at hc
      exact Option.some.inj hc
    have := List.rdropWhile_last_not isspace (s.dropWhile isspace) hne
    rw [← hlast]
    simpa [trim] using this

/-- C20: the invariant `load` establishes.  Both maps have the same keys, each
once; every count is at least 1; every display name is non-empty, neither
starts nor ends with whitespace, and lowercases to its key.  Hence
`pretty_.at(key)` succeeds for every key of the count map and the sorted views
return normally. -/
theorem load_invariant (t0 : FrequencyTable) (lines : List Str) :
    ∃ t, load t0 (some lines) = Except.ok t ∧
      (∀ k, k ∈ t.counts_.map Prod.fst ↔ k ∈ t.pretty_.map Prod.fst) ∧
      (t.counts_.map Prod.fst).Nodup ∧ (t.pretty_.map Prod.fst).Nodup ∧
      (∀ kc ∈ t.counts_, 1 ≤ kc.2) ∧
      (∀ kd ∈ t.pretty_, kd.2 ≠ [] ∧
        (∀ c, kd.2.head? = some c → isspace c = false) ∧
        (∀ c, kd.2.getLast? = some c → isspace c = false) ∧
        trim kd.2 = kd.2 ∧ toLower kd.2 = kd.1) ∧
      (∀ kc ∈ t.counts_, ∃ name, mapAt t.pretty_ kc.1 = Except.ok name) ∧
      (∃ out, itemsSortedByName t = Except.ok out) ∧
      (∃ out, itemsSortedByFreqDesc t = Except.ok out) ∧
      (∃ out, itemsSortedByFreqAsc t = Except.ok out) := by
  have hwf := wellFormed_foldl lines _ (wellFormed_cleared t0)
  refine ⟨_, rfl, ?_, hwf.nodup, ?_, hwf.pos, ?_, ?_,
    ⟨_, itemsSortedByName_wellFormed _ hwf⟩, ⟨_, itemsSortedByFreqDesc_wellFormed _ hwf⟩,
    ⟨_, itemsSortedByFreqAsc_wellFormed _ hwf⟩⟩
  · intro k
    rw [hwf.keys_eq]
  · rw [hwf.keys_eq]
    exact hwf.nodup
  · intro kd hkd
    obtain ⟨hne, htrim, hlow⟩ := hwf.display kd hkd
    have hedge := trim_no_edge_space kd.2
    rw [htrim] at hedge
    exact ⟨hne, hedge.1, hedge.2, htrim, hlow⟩
  · intro kc hkc
    obtain ⟨d, hd, _⟩ := mapFind_pretty_of_mem _ hwf kc hkc
    exact ⟨d, by simp only [mapAt, hd]⟩
